import Mathlib

/-!
Verification of the parallel task orchestrator core (wave scheduler,
resource-lock registry, state manager, wave executor failure policy).

The Python source is shallowly embedded: dataclasses become structures,
dicts become association lists (`List (String × β)`) or total functions
with explicit defaults (for `defaultdict`), `datetime` values become
abstract `Nat` timestamps (ISO-8601 round-tripping is exact, so
serialization of a timestamp is the identity), float durations become
`Nat` (only order and equality of durations matter to the claims), and
exceptions become `Except` / `Option` results.
-/

namespace ClaudeOps

/-- Association-list lookup, embedding Python `dict.get`: returns the value
of the first entry with the given key. Dicts built by the source never hold
duplicate keys; where a proof needs that, it is an explicit hypothesis. -/
def alGet {β : Type} : List (String × β) → String → Option β
  | [], _ => none
  | (k, v) :: rest, key => if key = k then some v else alGet rest key

/-! ## Data model (`models/parallel_execution.py`, `models/execution_state.py`) -/

/-- `PhaseInfo` dataclass: a unit of work with declared dependencies and
outputs.  `estimated_time` (a float number of hours in the source) is
modelled as a `Nat`; the claims only compare durations. -/
structure PhaseInfo where
  id : String
  name : String
  dependencies : List String
  outputs : List String
  estimated_time : Nat
  description : String
deriving DecidableEq, Repr

/-- `ExecutionWave` dataclass: a batch of phases scheduled to run
concurrently.  Timestamps are abstract `Nat`s; `status` is the raw string
the source stores (`"pending"` initially). -/
structure ExecutionWave where
  wave_number : Nat
  phases : List String
  start_time : Option Nat
  end_time : Option Nat
  status : String
deriving DecidableEq, Repr

/-- `ExecutionWave.add_phase`: append the phase id unless already present. -/
def wave_add_phase (w : ExecutionWave) (phase_id : String) : ExecutionWave :=
  if phase_id ∈ w.phases then w else { w with phases := w.phases ++ [phase_id] }

/-- A fresh `ExecutionWave(wave_number=n)` with the dataclass defaults. -/
def mkWave (n : Nat) : ExecutionWave :=
  { wave_number := n, phases := [], start_time := none, end_time := none, status := "pending" }

/-- `DependencyGraph`: the source stores `nodes` (dict phase-id → `PhaseInfo`,
keyed by the phase's own id via `add_phase`) plus `edges`/`reverse_edges`
dicts derived from the phases' dependency lists.  For every graph built by
`add_phase`, `edges[d]` is exactly `{p.id | p ∈ nodes, d ∈ p.dependencies}`
and `nodes[i]` is the phase whose `id` is `i`, so the node list determines
the whole structure; the derived accessors below embed the dict reads. -/
structure DependencyGraph where
  nodes : List PhaseInfo
deriving DecidableEq, Repr

/-- The graph's phase ids (`graph.nodes.keys()`), in insertion order. -/
def ids (g : DependencyGraph) : List String := g.nodes.map (·.id)

/-- Dict read `graph.nodes[p]` / `graph.get_phase(p)`. -/
def find_phase (g : DependencyGraph) (p : String) : Option PhaseInfo :=
  g.nodes.find? (fun ph => ph.id = p)

/-- The dependency list of phase `p` (empty when `p` is not a node). -/
def deps (g : DependencyGraph) (p : String) : List String :=
  match find_phase g p with
  | some ph => ph.dependencies
  | none => []

/-- `graph.get_dependents(p)`: the set `edges[p]` of phases that list `p`
as a dependency, embedded by its characterization for built graphs. -/
def dependents (g : DependencyGraph) (p : String) : List String :=
  (g.nodes.filter (fun q => decide (p ∈ q.dependencies))).map (·.id)

/-! ## Wave calculator (`analyzers/wave_calculator.py`) -/

/-- The inner `for dependent_id in graph.get_dependents(phase_id)` loop of
`calculate_execution_waves`: decrement the in-degree of every dependent,
enqueueing any dependent whose count reaches zero. -/
def decrement_dependents : List String → (String → Int) → List String → (String → Int) × List String
  | [], deg, queue => (deg, queue)
  | d :: rest, deg, queue =>
    let v := deg d - 1
    decrement_dependents rest (fun x => if x = d then v else deg x)
      (if v = 0 then queue ++ [d] else queue)

/-- State threaded through one wave of `calculate_execution_waves`'s
`while queue` loop body. -/
structure BatchResult where
  wave : ExecutionWave
  processed : List String
  in_degree : String → Int
  queue : List String

/-- The `for phase_id in current_batch` loop: add the phase to the current
wave, add it to the `processed` set (dicts/sets are modelled as
insertion-ordered lists with membership-checked insertion), and decrement
the in-degrees of its dependents. -/
def process_batch (g : DependencyGraph) : List String → BatchResult → BatchResult
  | [], r => r
  | p :: rest, r =>
    let dq := decrement_dependents (dependents g p) r.in_degree r.queue
    process_batch g rest
      { wave := wave_add_phase r.wave p
        processed := if p ∈ r.processed then r.processed else r.processed ++ [p]
        in_degree := dq.1
        queue := dq.2 }

/-- State of `calculate_execution_waves` between iterations of `while queue`. -/
structure KahnState where
  queue : List String
  in_degree : String → Int
  processed : List String
  waves : List ExecutionWave
  wave_number : Nat

/-- The `while queue` loop.  The source's loop runs at most
`len(graph.nodes)` iterations (each iteration consumes a nonempty queue of
not-yet-processed phases), so running with fuel `len(nodes) + 1` computes
the loop's exact result; the proofs establish that the fuel is never
exhausted. -/
def kahn_loop (g : DependencyGraph) : Nat → KahnState → KahnState
  | 0, s => s
  | fuel + 1, s =>
    if s.queue = [] then s
    else
      let r := process_batch g s.queue
        { wave := mkWave s.wave_number, processed := s.processed,
          in_degree := s.in_degree, queue := [] }
      if r.wave.phases = [] then
        kahn_loop g fuel
          { queue := r.queue, in_degree := r.in_degree, processed := r.processed,
            waves := s.waves, wave_number := s.wave_number }
      else
        kahn_loop g fuel
          { queue := r.queue, in_degree := r.in_degree, processed := r.processed,
            waves := s.waves ++ [r.wave], wave_number := s.wave_number + 1 }

/-- `WaveCalculator._calculate_in_degrees` as a total function (the source
uses a `defaultdict(int)`, so absent keys read as `0`): each node's count
is the length of its dependency list. -/
def in_degrees (g : DependencyGraph) : String → Int :=
  fun p =>
    match find_phase g p with
    | some ph => (ph.dependencies.length : Int)
    | none => 0

/-- `WaveCalculator.calculate_execution_waves`: Kahn-style topological
batching.  Returns `.error unprocessed` (the source raises `ValueError`
naming the unprocessed phase-id set) when not every node was processed. -/
def calculate_execution_waves (g : DependencyGraph) :
    Except (List String) (List ExecutionWave) :=
  let seed := (g.nodes.filter (fun ph => decide (ph.dependencies.length = 0))).map (·.id)
  let s := kahn_loop g (g.nodes.length + 1)
    { queue := seed, in_degree := in_degrees g, processed := [], waves := [], wave_number := 0 }
  if s.processed.length = g.nodes.length then .ok s.waves
  else .error ((ids g).filter (fun p => decide (p ∉ s.processed)))

/-! ## Wave distribution optimization (`optimize_wave_distribution`) -/

/-- `WaveCalculator._get_phase_from_cache`: the class-level phase cache,
modelled as an explicit lookup function (it is populated externally by the
dependency analyzer). -/
def get_phase_from_cache (cache : String → Option PhaseInfo) (phase_id : String) :
    Option PhaseInfo :=
  cache phase_id

/-- The estimated time `_split_wave` associates to a phase id: the cached
phase's `estimated_time`, defaulting to `1` (the source's `1.0`) when the
phase is not in the cache. -/
def phase_time (cache : String → Option PhaseInfo) (phase_id : String) : Nat :=
  match get_phase_from_cache cache phase_id with
  | some ph => ph.estimated_time
  | none => 1

/-- Stable descending insertion by estimated time, embedding
`phase_times.sort(key=lambda x: x[1], reverse=True)` (Python's sort is a
stable sort; a phase is inserted after all phases of strictly larger or
equal time). -/
def insert_desc (cache : String → Option PhaseInfo) (p : String) :
    List String → List String
  | [] => [p]
  | q :: rest =>
    if phase_time cache q < phase_time cache p then p :: q :: rest
    else q :: insert_desc cache p rest

/-- Sort a phase list by descending estimated time. -/
def sort_desc (cache : String → Option PhaseInfo) : List String → List String
  | [] => []
  | p :: rest => insert_desc cache p (sort_desc cache rest)

/-- The chunking loop of `_split_wave`: start a new sub-wave whenever the
current one has reached `max_size` phases, and keep a trailing nonempty
sub-wave. -/
def chunk_loop (wn : Nat) (max_size : Int) :
    List String → ExecutionWave → List ExecutionWave
  | [], current => if current.phases.isEmpty then [] else [current]
  | pid :: rest, current =>
    if max_size ≤ (current.phases.length : Int) then
      current :: chunk_loop wn max_size rest (wave_add_phase (mkWave wn) pid)
    else
      chunk_loop wn max_size rest (wave_add_phase current pid)

/-- `WaveCalculator._split_wave`: sort the wave's phases by descending
estimated time, then chunk them into sub-waves of at most `max_size`
phases, all carrying the original wave's number. -/
def split_wave (cache : String → Option PhaseInfo) (wave : ExecutionWave)
    (max_size : Int) : List ExecutionWave :=
  chunk_loop wave.wave_number max_size (sort_desc cache wave.phases)
    (mkWave wave.wave_number)

/-- The `for i, wave in enumerate(optimized_waves): wave.wave_number = i`
renumbering pass. -/
def renumber (i : Nat) : List ExecutionWave → List ExecutionWave
  | [] => []
  | w :: rest => { w with wave_number := i } :: renumber (i + 1) rest

/-- `WaveCalculator.optimize_wave_distribution`: waves that fit within the
agent limit are kept; oversized waves are split; the result is renumbered
sequentially.  `max_agents` is an `Int` to embed the source's
`max_agents <= 0` early return. -/
def optimize_wave_distribution (cache : String → Option PhaseInfo)
    (waves : List ExecutionWave) (max_agents : Int) : List ExecutionWave :=
  if max_agents ≤ 0 then waves
  else
    renumber 0
      ((waves.map (fun w =>
        if (w.phases.length : Int) ≤ max_agents then [w]
        else split_wave cache w max_agents)).flatten)

/-! ## Resource lock registry (`core/resource_manager.py`) -/

/-- Lock kinds (`LockType` enum). -/
inductive LockType where
  | shared
  | exclusive
deriving DecidableEq, Repr

/-- `ResourceLock` dataclass.  Resource paths are taken to be already
canonical (the source canonicalizes every path with `Path.resolve` at each
entry point, so the registry only ever sees canonical paths). -/
structure ResourceLock where
  resource_path : String
  owner_phase : String
  lock_time : Nat
  lock_type : LockType
  expires_at : Option Nat
deriving DecidableEq, Repr

/-- `ResourceLock.is_expired`, at explicit time `now`
(`datetime.now() > expires_at`). -/
def lock_is_expired (l : ResourceLock) (now : Nat) : Bool :=
  match l.expires_at with
  | none => false
  | some e => decide (e < now)

/-- `LockRegistry` state: `_locks` (dict resource path → list of locks) and
`_phase_locks` (dict phase id → set of resource paths), both as
insertion-ordered association lists. -/
structure LockRegistry where
  locks : List (String × List ResourceLock)
  phase_locks : List (String × List String)
deriving DecidableEq, Repr

/-- Read `self._locks.get(path, [])`. -/
def get_locks (reg : LockRegistry) (path : String) : List ResourceLock :=
  (alGet reg.locks path).getD []

/-- `LockRegistry._get_active_locks`: non-expired locks for a resource. -/
def get_active_locks (reg : LockRegistry) (now : Nat) (path : String) :
    List ResourceLock :=
  (get_locks reg path).filter (fun l => ! lock_is_expired l now)

/-- `LockRegistry.can_acquire`.  Rules: multiple shared locks are allowed;
an exclusive lock requires no other locks; the same phase can re-acquire
or upgrade unless upgrading to exclusive while more than one active lock
exists. -/
def can_acquire (reg : LockRegistry) (now : Nat) (resource_path phase_id : String)
    (lock_type : LockType) : Bool :=
  let active_locks := get_active_locks reg now resource_path
  if active_locks.isEmpty then true
  else
    let phase_locks := active_locks.filter (fun l => decide (l.owner_phase = phase_id))
    if ! phase_locks.isEmpty then
      if lock_type = LockType.exclusive ∧ active_locks.length > 1 then false
      else true
    else if lock_type = LockType.exclusive then false
    else active_locks.all (fun l => decide (l.lock_type = LockType.shared))

/-- `LockRegistry._remove_phase_lock`: drop the phase's locks on the path
(deleting the dict entry when it empties) and discard the path from the
phase's path set (deleting that entry when it empties). -/
def remove_phase_lock (reg : LockRegistry) (resource_path phase_id : String) :
    LockRegistry :=
  let locks' :=
    if (alGet reg.locks resource_path).isSome then
      (reg.locks.map (fun e =>
        if e.1 = resource_path then
          (e.1, e.2.filter (fun l => ! decide (l.owner_phase = phase_id)))
        else e)).filter (fun e => ! (decide (e.1 = resource_path) && e.2.isEmpty))
    else reg.locks
  let phase_locks' :=
    if (alGet reg.phase_locks phase_id).isSome then
      (reg.phase_locks.map (fun e =>
        if e.1 = phase_id then
          (e.1, e.2.filter (fun q => ! decide (q = resource_path)))
        else e)).filter (fun e => ! (decide (e.1 = phase_id) && e.2.isEmpty))
    else reg.phase_locks
  { locks := locks', phase_locks := phase_locks' }

/-- Append a lock under its path key (`self._locks[path].append(lock)` on a
`defaultdict(list)`: a missing key is created at the end of the dict). -/
def locks_append (l : List (String × List ResourceLock)) (k : String)
    (v : ResourceLock) : List (String × List ResourceLock) :=
  if (alGet l k).isSome then
    l.map (fun e => if e.1 = k then (e.1, e.2 ++ [v]) else e)
  else l ++ [(k, [v])]

/-- Add a path to a phase's path set (`self._phase_locks[phase].add(path)`
on a `defaultdict(set)`). -/
def phase_locks_add (l : List (String × List String)) (k v : String) :
    List (String × List String) :=
  if (alGet l k).isSome then
    l.map (fun e => if e.1 = k then (e.1, if v ∈ e.2 then e.2 else e.2 ++ [v]) else e)
  else l ++ [(k, [v])]

/-- `LockRegistry.acquire_lock`: check `can_acquire`, remove any existing
lock by the same phase on the path (upgrade), then record the new lock. -/
def acquire_lock (reg : LockRegistry) (now : Nat) (lock : ResourceLock) :
    Bool × LockRegistry :=
  if ! can_acquire reg now lock.resource_path lock.owner_phase lock.lock_type then
    (false, reg)
  else
    let reg1 := remove_phase_lock reg lock.resource_path lock.owner_phase
    (true,
      { locks := locks_append reg1.locks lock.resource_path lock
        phase_locks := phase_locks_add reg1.phase_locks lock.owner_phase
          lock.resource_path })

/-- `LockRegistry.release_lock`. -/
def release_lock (reg : LockRegistry) (resource_path phase_id : String) :
    LockRegistry :=
  remove_phase_lock reg resource_path phase_id

/-- `LockRegistry.release_all_phase_locks`: release every path recorded in
the phase's path set. -/
def release_all_phase_locks (reg : LockRegistry) (phase_id : String) :
    LockRegistry :=
  ((alGet reg.phase_locks phase_id).getD []).foldl
    (fun r path => remove_phase_lock r path phase_id) reg

/-- `LockRegistry.cleanup_expired_locks`: keep only non-expired locks
(dropping emptied path entries), then prune the phase→paths map to paths
where the phase still holds some lock. -/
def cleanup_expired_locks (reg : LockRegistry) (now : Nat) : LockRegistry :=
  let locks' :=
    (reg.locks.map (fun e => (e.1, e.2.filter (fun l => ! lock_is_expired l now)))).filter
      (fun e => ! e.2.isEmpty)
  let phase_locks' :=
    (reg.phase_locks.map (fun e =>
      (e.1, e.2.filter (fun path =>
        ((alGet locks' path).getD []).any (fun l => decide (l.owner_phase = e.1)))))).filter
      (fun e => ! e.2.isEmpty)
  { locks := locks', phase_locks := phase_locks' }

/-- The registry's dict keys are distinct (true of every Python dict). -/
def NodupKeys (reg : LockRegistry) : Prop :=
  (reg.locks.map (·.1)).Nodup ∧ (reg.phase_locks.map (·.1)).Nodup

/-- C4's invariant: on each path, an active exclusive lock is the only
active lock (so either all active locks are shared, or there is exactly
one active lock and it is exclusive). -/
def ExclusiveAlone (reg : LockRegistry) (now : Nat) : Prop :=
  ∀ path : String, ∀ l ∈ get_active_locks reg now path,
    l.lock_type = LockType.exclusive → get_active_locks reg now path = [l]

/-- C10's invariant: every phase holds at most one lock per resource path. -/
def PhaseHoldsAtMostOne (reg : LockRegistry) : Prop :=
  ∀ path phase_id : String,
    ((get_locks reg path).filter (fun l => decide (l.owner_phase = phase_id))).length ≤ 1

/-! ## Execution-state model (`models/execution_state.py`) -/

/-- `PhaseStatus` enum. -/
inductive PhaseStatus where
  | not_started
  | queued
  | in_progress
  | completed
  | failed
  | blocked
  | cancelled
deriving DecidableEq, Repr

/-- `PhaseStatus.value`: the string stored in the state file. -/
def PhaseStatus.value : PhaseStatus → String
  | .not_started => "not_started"
  | .queued => "queued"
  | .in_progress => "in_progress"
  | .completed => "completed"
  | .failed => "failed"
  | .blocked => "blocked"
  | .cancelled => "cancelled"

/-- `PhaseStatus(s)` as used by `_deserialize_state`; an unknown string
raises `ValueError` in Python, which `load_execution_state` turns into a
`None` result, so the embedding returns `none`. -/
def PhaseStatus.ofValue : String → Option PhaseStatus
  | "not_started" => some .not_started
  | "queued" => some .queued
  | "in_progress" => some .in_progress
  | "completed" => some .completed
  | "failed" => some .failed
  | "blocked" => some .blocked
  | "cancelled" => some .cancelled
  | _ => none

/-- `AgentStatus` enum. -/
inductive AgentStatus where
  | idle
  | assigned
  | working
  | completed
  | error
  | terminated
deriving DecidableEq, Repr

/-- `AgentStatus.value`. -/
def AgentStatus.value : AgentStatus → String
  | .idle => "idle"
  | .assigned => "assigned"
  | .working => "working"
  | .completed => "completed"
  | .error => "error"
  | .terminated => "terminated"

/-- `AgentStatus(s)`, failing on unknown strings. -/
def AgentStatus.ofValue : String → Option AgentStatus
  | "idle" => some .idle
  | "assigned" => some .assigned
  | "working" => some .working
  | "completed" => some .completed
  | "error" => some .error
  | "terminated" => some .terminated
  | _ => none

/-- One agent log entry (`AgentInfo.add_log` dicts; serialized verbatim). -/
structure LogEntry where
  timestamp : String
  level : String
  message : String
deriving DecidableEq, Repr

/-- `PhaseExecutionDetails` dataclass.  Metrics dicts are string maps. -/
structure PhaseExecutionDetails where
  phase_id : String
  status : PhaseStatus
  agent_id : Option String
  start_time : Option Nat
  end_time : Option Nat
  error_message : Option String
  retry_count : Nat
  output_files : List String
  metrics : List (String × String)
deriving DecidableEq, Repr

/-- `AgentInfo` dataclass. -/
structure AgentInfo where
  agent_id : String
  assigned_phase : Option String
  status : AgentStatus
  logs : List LogEntry
  created_at : Nat
  terminated_at : Option Nat
deriving DecidableEq, Repr

/-- `ExecutionState` dataclass: the aggregate persisted for recovery.
`phase_states` and `agents` are dicts (association lists). -/
structure ExecutionState where
  phase_states : List (String × PhaseExecutionDetails)
  waves : List ExecutionWave
  agents : List (String × AgentInfo)
  start_time : Option Nat
  end_time : Option Nat
  config : List (String × String)
deriving DecidableEq, Repr

/-! ## State manager (`orchestrator/state_manager.py`) -/

/-- The JSON shape `_serialize_state` produces for one phase record. -/
structure SerializedPhase where
  phase_id : String
  status : String
  agent_id : Option String
  start_time : Option Nat
  end_time : Option Nat
  error_message : Option String
  retry_count : Nat
  output_files : List String
  metrics : List (String × String)
deriving DecidableEq, Repr

/-- The JSON shape for one wave record. -/
structure SerializedWave where
  wave_number : Nat
  phases : List String
  start_time : Option Nat
  end_time : Option Nat
  status : String
deriving DecidableEq, Repr

/-- The JSON shape for one agent record. -/
structure SerializedAgent where
  agent_id : String
  assigned_phase : Option String
  status : String
  created_at : Nat
  terminated_at : Option Nat
  logs : List LogEntry
deriving DecidableEq, Repr

/-- The body of the persisted JSON document (the `metadata` block is
written alongside it but is not part of the deserialized state). -/
structure SerializedState where
  phase_states : List (String × SerializedPhase)
  waves : List SerializedWave
  agents : List (String × SerializedAgent)
  start_time : Option Nat
  end_time : Option Nat
  config : List (String × String)
deriving DecidableEq, Repr

/-- `StateManager._serialize_state`.  Timestamps serialize by
`isoformat()`, whose round trip with `fromisoformat` is exact, so they are
embedded as the identity on the `Nat` model. -/
def serialize_state (state : ExecutionState) : SerializedState :=
  { phase_states := state.phase_states.map (fun e =>
      (e.1,
        { phase_id := e.2.phase_id
          status := e.2.status.value
          agent_id := e.2.agent_id
          start_time := e.2.start_time
          end_time := e.2.end_time
          error_message := e.2.error_message
          retry_count := e.2.retry_count
          output_files := e.2.output_files
          metrics := e.2.metrics }))
    waves := state.waves.map (fun w =>
      { wave_number := w.wave_number
        phases := w.phases
        start_time := w.start_time
        end_time := w.end_time
        status := w.status })
    agents := state.agents.map (fun e =>
      (e.1,
        { agent_id := e.2.agent_id
          assigned_phase := e.2.assigned_phase
          status := e.2.status.value
          created_at := e.2.created_at
          terminated_at := e.2.terminated_at
          logs := e.2.logs }))
    start_time := state.start_time
    end_time := state.end_time
    config := state.config }

/-- Deserialize one phase record: the dict key (not the stored
`phase_id` field) becomes the record's `phase_id`; the status string is
parsed and an unknown value fails the whole load. -/
def deserialize_phase (key : String) (sp : SerializedPhase) :
    Option PhaseExecutionDetails :=
  match PhaseStatus.ofValue sp.status with
  | none => none
  | some st =>
    some
      { phase_id := key
        status := st
        agent_id := sp.agent_id
        start_time := sp.start_time
        end_time := sp.end_time
        error_message := sp.error_message
        retry_count := sp.retry_count
        output_files := sp.output_files
        metrics := sp.metrics }

/-- Deserialize the `phase_states` dict in order. -/
def deserialize_phase_states :
    List (String × SerializedPhase) → Option (List (String × PhaseExecutionDetails))
  | [] => some []
  | (k, sp) :: rest =>
    match deserialize_phase k sp, deserialize_phase_states rest with
    | some d, some ds => some ((k, d) :: ds)
    | _, _ => none

/-- Deserialize one wave record (the status string is kept verbatim). -/
def deserialize_wave (sw : SerializedWave) : ExecutionWave :=
  { wave_number := sw.wave_number
    phases := sw.phases
    start_time := sw.start_time
    end_time := sw.end_time
    status := sw.status }

/-- Deserialize one agent record (the dict key becomes `agent_id`). -/
def deserialize_agent (key : String) (sa : SerializedAgent) : Option AgentInfo :=
  match AgentStatus.ofValue sa.status with
  | none => none
  | some st =>
    some
      { agent_id := key
        assigned_phase := sa.assigned_phase
        status := st
        logs := sa.logs
        created_at := sa.created_at
        terminated_at := sa.terminated_at }

/-- Deserialize the `agents` dict in order. -/
def deserialize_agents :
    List (String × SerializedAgent) → Option (List (String × AgentInfo))
  | [] => some []
  | (k, sa) :: rest =>
    match deserialize_agent k sa, deserialize_agents rest with
    | some a, some as2 => some ((k, a) :: as2)
    | _, _ => none

/-- `StateManager._deserialize_state` (wrapped, as in
`load_execution_state`, so that any parse error yields `none`). -/
def deserialize_state (data : SerializedState) : Option ExecutionState :=
  match deserialize_phase_states data.phase_states, deserialize_agents data.agents with
  | some ps, some ags =>
    some
      { phase_states := ps
        waves := data.waves.map deserialize_wave
        agents := ags
        start_time := data.start_time
        end_time := data.end_time
        config := data.config }
  | _, _ => none

/-- The per-phase crash marking of `recover_from_crash`: any phase still
`in_progress` is reclassified as `failed` with reason
"Interrupted by crash" and its end time set to the recovery time. -/
def mark_interrupted (now : Nat) (d : PhaseExecutionDetails) :
    PhaseExecutionDetails :=
  if d.status = PhaseStatus.in_progress then
    { d with status := PhaseStatus.failed
             error_message := some "Interrupted by crash"
             end_time := some now }
  else d

/-- The backup fallback loop of `recover_from_crash`: try the loaded
backups in the given (reverse chronological) order — but only
`backups[:3]`, the three most recent — returning the first state that
loads. Each list entry is the result of loading that backup file. -/
def try_backups : List (Option ExecutionState) → Option ExecutionState
  | [] => none
  | some st :: _ => some st
  | none :: rest => try_backups rest

/-- `StateManager.recover_from_crash`: if the live state file loads, mark
every `in_progress` phase as failed ("Interrupted by crash") and return
the state; otherwise fall back to the three most recent backups.  `live`
is the result of `load_execution_state()` on the live file and
`backup_loads` the load results of the backup files sorted most recent
first. -/
def recover_from_crash (live : Option ExecutionState)
    (backup_loads : List (Option ExecutionState)) (now : Nat) :
    Option ExecutionState :=
  match live with
  | some st =>
    some { st with
      phase_states := st.phase_states.map (fun e => (e.1, mark_interrupted now e.2)) }
  | none => try_backups (backup_loads.take 3)

/-! ## Wave executor failure policy (`orchestrator/wave_executor.py`) -/

/-- `RecoveryAction` enum. -/
inductive RecoveryAction where
  | retry
  | skip
  | abort_wave
  | abort_all
deriving DecidableEq, Repr

/-- The terminal-strategy dispatch at the bottom of
`_handle_phase_failure` (unknown strategies fall through to skip). -/
def terminal_action (failure_strategy : String) : RecoveryAction :=
  if failure_strategy = "skip" then RecoveryAction.skip
  else if failure_strategy = "abort_wave" then RecoveryAction.abort_wave
  else if failure_strategy = "abort_all" then RecoveryAction.abort_all
  else RecoveryAction.skip

/-- `WaveExecutor._handle_phase_failure`: retry while the phase's retry
count is below the limit and the configured strategy is `"retry"`;
otherwise dispatch on the configured terminal strategy. -/
def handle_phase_failure (phase_states : List (String × PhaseExecutionDetails))
    (retry_limit : Nat) (failure_strategy : String) (phase_id : String) :
    RecoveryAction :=
  match alGet phase_states phase_id with
  | some d =>
    if d.retry_count < retry_limit then
      if failure_strategy = "retry" then RecoveryAction.retry
      else terminal_action failure_strategy
    else terminal_action failure_strategy
  | none => terminal_action failure_strategy

/-! ### Concrete instances used by the witness theorems -/

/-- Witness phase `A` (no dependencies). -/
def phW_A : PhaseInfo :=
  { id := "A", name := "A", dependencies := [], outputs := [], estimated_time := 1,
    description := "" }

/-- Witness phase `B`, depending on `A`. -/
def phW_B : PhaseInfo :=
  { id := "B", name := "B", dependencies := ["A"], outputs := [], estimated_time := 2,
    description := "" }

/-- Witness phase `C`, depending on `A` and `B`. -/
def phW_C : PhaseInfo :=
  { id := "C", name := "C", dependencies := ["A", "B"], outputs := [], estimated_time := 3,
    description := "" }

/-- A small acyclic witness graph. -/
def gW : DependencyGraph := { nodes := [phW_A, phW_B, phW_C] }

/-- A rank function witnessing that `gW` is acyclic. -/
def rankW : String → Nat := fun s => if s = "C" then 2 else if s = "B" then 1 else 0

/-- Witness phase `X`, depending on `Y` (cycle member). -/
def phW_X : PhaseInfo :=
  { id := "X", name := "X", dependencies := ["Y"], outputs := [], estimated_time := 1,
    description := "" }

/-- Witness phase `Y`, depending on `X` (cycle member). -/
def phW_Y : PhaseInfo :=
  { id := "Y", name := "Y", dependencies := ["X"], outputs := [], estimated_time := 1,
    description := "" }

/-- A witness graph containing the two-phase cycle `X ↔ Y`. -/
def gCyc : DependencyGraph := { nodes := [phW_X, phW_Y] }

/-- Helper to build simple witness phases. -/
def mkPhase (i : String) (ds : List String) (t : Nat) : PhaseInfo :=
  { id := i, name := i, dependencies := ds, outputs := [], estimated_time := t,
    description := "" }

/-- A five-phase witness wave (the spec's `OptimizeWaveDistribution`
scenario with `maxConcurrency = 2`). -/
def waveW : ExecutionWave :=
  { wave_number := 0, phases := ["P1", "P2", "P3", "P4", "P5"],
    start_time := none, end_time := none, status := "pending" }

/-- A witness shared lock held by phase `p1` on resource `r`. -/
def lockS : ResourceLock :=
  { resource_path := "r", owner_phase := "p1", lock_time := 0,
    lock_type := LockType.shared, expires_at := none }

/-- A witness exclusive lock on `r` requested by `p1` (an upgrade). -/
def lockX : ResourceLock :=
  { resource_path := "r", owner_phase := "p1", lock_time := 5,
    lock_type := LockType.exclusive, expires_at := none }

/-- A witness registry: `p1` holds a shared lock on `r`. -/
def regW : LockRegistry :=
  { locks := [("r", [lockS])], phase_locks := [("p1", ["r"])] }

/-- A witness phase cache; `P4` is deliberately absent so the default
estimated time of 1 is exercised. -/
def cacheW : String → Option PhaseInfo := fun s =>
  if s = "P1" then some (mkPhase "P1" [] 1)
  else if s = "P2" then some (mkPhase "P2" [] 4)
  else if s = "P3" then some (mkPhase "P3" [] 2)
  else if s = "P5" then some (mkPhase "P5" [] 5)
  else none

/-- A witness phase-execution record with no retries yet. -/
def dW : PhaseExecutionDetails :=
  { phase_id := "ph1", status := PhaseStatus.failed, agent_id := none,
    start_time := none, end_time := none, error_message := none,
    retry_count := 0, output_files := [], metrics := [] }

/-- A witness in-progress phase record (crash-recovery scenario). -/
def dIP : PhaseExecutionDetails :=
  { phase_id := "ph2", status := PhaseStatus.in_progress, agent_id := some "agent-1",
    start_time := some 10, end_time := none, error_message := none,
    retry_count := 0, output_files := [], metrics := [] }

/-- A minimal witness execution state. -/
def stW : ExecutionState :=
  { phase_states := [("ph1", dW), ("ph2", dIP)], waves := [], agents := [],
    start_time := some 1, end_time := none, config := [] }

structure KahnInv (g : DependencyGraph) (pending processed : List String)
    (deg : String → Int) : Prop where
  processed_nodup : processed.Nodup
  processed_sub : ∀ p ∈ processed, p ∈ ids g
  pending_nodup : pending.Nodup
  pending_sub : ∀ p ∈ pending, p ∈ ids g
  pend_disj : ∀ p ∈ pending, p ∉ processed
  count : ∀ p ∈ ids g,
    deg p = ((deps g p).length : Int) - (processed.countP (fun d => decide (d ∈ deps g p)) : Int)
  closed_nodup : ∀ i (hi : i < processed.length), (deps g processed[i]).Nodup
  closed : ∀ i (hi : i < processed.length), ∀ d ∈ deps g processed[i], d ∈ processed.take i
  pending_zero : ∀ p ∈ pending, deg p = 0
  stuck_nonzero : ∀ p ∈ ids g, p ∉ processed → p ∉ pending → deg p ≠ 0

/-- Invariant of `calculate_execution_waves`' `while queue` loop: the waves
accumulated so far concatenate (in order) to the processed list, wave
numbers are the sequential indices, and every phase already placed in a
wave has all of its dependencies in strictly earlier waves. -/
structure LoopInv (g : DependencyGraph) (s : KahnState) : Prop where
  inv : KahnInv g s.queue s.processed s.in_degree
  flatten_eq : (s.waves.map (·.phases)).flatten = s.processed
  wnum : s.wave_number = s.waves.length
  numbering : ∀ i (hi : i < s.waves.length), (s.waves[i]).wave_number = i
  ordered : ∀ i (hi : i < s.waves.length), ∀ p ∈ (s.waves[i]).phases,
    ∀ d ∈ deps g p, ∃ j, ∃ hj : j < s.waves.length, j < i ∧ d ∈ (s.waves[j]).phases

/-- Transitive reachability along dependency edges: `DepReaches g a b`
holds when there is a nonempty chain of dependency edges from `a` down to
`b`.  A phase `p` lies on a cycle exactly when `DepReaches g p p`. -/
inductive DepReaches (g : DependencyGraph) : String → String → Prop
  | step {a b : String} : b ∈ deps g a → DepReaches g a b
  | trans {a b c : String} : DepReaches g a b → DepReaches g b c → DepReaches g a c

/-! ### Basic facts about the graph accessors -/

theorem alGet_eq_none_iff {β : Type} (l : List (String × β)) (key : String) :
    alGet l key = none ↔ ∀ e ∈ l, e.1 ≠ key := by
  induction l with
  | nil => simp [alGet]
  | cons e rest ih =>
    simp only [alGet]
    by_cases h : key = e.1
    · simp [h]
    · simp only [if_neg h, ih, List.mem_cons]
      constructor
      · rintro hrest x (rfl | hx)
        · exact fun hc => h hc.symm
        · exact hrest x hx
      · intro hall x hx
        exact hall x (Or.inr hx)

theorem find_phase_spec {g : DependencyGraph} {p : String} {ph : PhaseInfo}
    (h : find_phase g p = some ph) : ph.id = p ∧ ph ∈ g.nodes := by
  unfold find_phase at h
  refine ⟨?_, List.mem_of_find?_eq_some h⟩
  have := List.find?_some h
  simpa using this

theorem mem_ids_iff {g : DependencyGraph} {p : String} :
    p ∈ ids g ↔ ∃ ph ∈ g.nodes, ph.id = p := by
  simp [ids, List.mem_map]

theorem find_aux : ∀ (nodes : List PhaseInfo), (nodes.map (·.id)).Nodup →
    ∀ {ph : PhaseInfo}, ph ∈ nodes →
    nodes.find? (fun q => q.id = ph.id) = some ph := by
  intro nodes
  induction nodes with
  | nil => intro _ ph hm; cases hm
  | cons q rest ih =>
    intro hids ph hm
    rcases List.mem_cons.mp hm with rfl | hm'
    · simp [List.find?_cons]
    · have hq : q.id ≠ ph.id := by
        intro he
        have : ph.id ∈ rest.map (·.id) := List.mem_map_of_mem _ hm'
        rw [← he] at this
        exact (List.nodup_cons.mp hids).1 this
      simp only [List.find?_cons]
      have hdq : decide (q.id = ph.id) = false := by simpa using hq
      rw [hdq]
      exact ih (List.nodup_cons.mp hids).2 hm'

theorem find_phase_of_mem {g : DependencyGraph} (hids : (ids g).Nodup)
    {ph : PhaseInfo} (hm : ph ∈ g.nodes) : find_phase g ph.id = some ph :=
  find_aux g.nodes hids hm

theorem deps_of_mem {g : DependencyGraph} (hids : (ids g).Nodup)
    {ph : PhaseInfo} (hm : ph ∈ g.nodes) : deps g ph.id = ph.dependencies := by
  unfold deps
  rw [find_phase_of_mem hids hm]

theorem deps_eq_nil_of_not_mem {g : DependencyGraph} {p : String}
    (h : p ∉ ids g) : deps g p = [] := by
  unfold deps
  cases hf : find_phase g p with
  | none => rfl
  | some ph =>
    obtain ⟨hid, hmem⟩ := find_phase_spec hf
    exact absurd (mem_ids_iff.mpr ⟨ph, hmem, hid⟩) h

theorem dependents_subset_ids {g : DependencyGraph} {d r : String}
    (h : r ∈ dependents g d) : r ∈ ids g := by
  unfold dependents at h
  obtain ⟨q, hq, rfl⟩ := List.mem_map.mp h
  exact List.mem_map_of_mem _ (List.mem_of_mem_filter hq)

theorem dependents_nodup {g : DependencyGraph} (hids : (ids g).Nodup) (d : String) :
    (dependents g d).Nodup := by
  unfold dependents
  have hsub : List.Sublist
      ((g.nodes.filter (fun q => decide (d ∈ q.dependencies))).map (·.id))
      (g.nodes.map (·.id)) := (List.filter_sublist _).map _
  exact hids.sublist hsub

theorem mem_dependents_iff {g : DependencyGraph} (hids : (ids g).Nodup) {d r : String} :
    r ∈ dependents g d ↔ r ∈ ids g ∧ d ∈ deps g r := by
  constructor
  · intro h
    obtain ⟨q, hq, rfl⟩ := List.mem_map.mp h
    have hqmem := List.mem_of_mem_filter hq
    have hqd : d ∈ q.dependencies := by simpa using List.of_mem_filter hq
    exact ⟨List.mem_map_of_mem _ hqmem, by rw [deps_of_mem hids hqmem]; exact hqd⟩
  · rintro ⟨hr, hd⟩
    obtain ⟨ph, hmem, rfl⟩ := mem_ids_iff.mp hr
    rw [deps_of_mem hids hmem] at hd
    exact List.mem_map_of_mem _ (List.mem_filter.mpr ⟨hmem, by simpa using hd⟩)

/-! ### Counting helpers for the in-degree invariant -/

theorem countP_mem_eq_length {ds l : List String} (hl : l.Nodup) (hds : ds.Nodup)
    (hsub : ∀ d ∈ ds, d ∈ l) :
    l.countP (fun d => decide (d ∈ ds)) = ds.length := by
  rw [List.countP_eq_length_filter]
  have hperm : List.Perm (l.filter (fun d => decide (d ∈ ds))) ds := by
    rw [List.perm_ext_iff_of_nodup (hl.filter _) hds]
    intro a
    simp only [List.mem_filter, decide_eq_true_eq]
    exact ⟨fun ⟨_, h2⟩ => h2, fun h => ⟨hsub a h, h⟩⟩
  exact hperm.length_eq

theorem eq_of_countP_eq_length {ds l : List String} (hl : l.Nodup)
    (h : l.countP (fun d => decide (d ∈ ds)) = ds.length) :
    ds.Nodup ∧ ∀ d ∈ ds, d ∈ l := by
  rw [List.countP_eq_length_filter] at h
  have hnd : (l.filter (fun d => decide (d ∈ ds))).Nodup := hl.filter _
  have hsub : l.filter (fun d => decide (d ∈ ds)) ⊆ ds := by
    intro a ha
    have := List.of_mem_filter ha
    simpa using this
  have hsp : List.Subperm (l.filter (fun d => decide (d ∈ ds))) ds := hnd.subperm hsub
  have hperm : List.Perm (l.filter (fun d => decide (d ∈ ds))) ds :=
    hsp.perm_of_length_le (le_of_eq h.symm)
  constructor
  · exact hperm.nodup_iff.mp hnd
  · intro d hd
    have : d ∈ l.filter (fun d => decide (d ∈ ds)) := hperm.symm.subset hd
    exact List.mem_of_mem_filter this

/-! ### Specification of the decrement loop -/

theorem decrement_dependents_spec (ds : List String) (hnd : ds.Nodup) :
    ∀ (deg : String → Int) (queue : List String),
    (∀ x, (decrement_dependents ds deg queue).1 x
        = if x ∈ ds then deg x - 1 else deg x) ∧
    (decrement_dependents ds deg queue).2
        = queue ++ ds.filter (fun d => decide (deg d = 1)) := by
  induction ds with
  | nil => intro deg queue; simp [decrement_dependents]
  | cons d rest ih =>
    intro deg queue
    have hdr : d ∉ rest := (List.nodup_cons.mp hnd).1
    have hrest : rest.Nodup := (List.nodup_cons.mp hnd).2
    simp only [decrement_dependents]
    obtain ⟨ihf, ihq⟩ := ih hrest (fun x => if x = d then deg d - 1 else deg x)
      (if deg d - 1 = 0 then queue ++ [d] else queue)
    constructor
    · intro x
      rw [ihf x]
      by_cases hx : x = d
      · subst hx
        simp [hdr, List.mem_cons]
      · by_cases hxr : x ∈ rest <;> simp [hx, hxr, List.mem_cons]
    · rw [ihq]
      have hfe : rest.filter (fun x => decide ((if x = d then deg d - 1 else deg x) = 1))
          = rest.filter (fun x => decide (deg x = 1)) := by
        apply List.filter_congr
        intro x hx
        have : x ≠ d := fun he => hdr (he ▸ hx)
        simp [this]
      rw [hfe]
      by_cases hd1 : deg d = 1
      · have : deg d - 1 = 0 := by omega
        simp [this, hd1, List.filter_cons]
      · have : ¬ (deg d - 1 = 0) := by omega
        simp [this, hd1, List.filter_cons]

/-! ### The Kahn loop invariant

`pending` is the multiset of phases that are scheduled but not yet
processed: at the top of a loop iteration it is the queue; in the middle of
a batch it is the unprocessed tail of the batch followed by the queue being
built for the next wave. -/


theorem KahnInv.zero_iff {g pending processed deg} (inv : KahnInv g pending processed deg)
    {p : String} (hp : p ∈ ids g) :
    deg p = 0 ↔ ((deps g p).Nodup ∧ ∀ d ∈ deps g p, d ∈ processed) := by
  rw [inv.count p hp]
  constructor
  · intro h
    have hc : processed.countP (fun d => decide (d ∈ deps g p)) = (deps g p).length := by omega
    exact eq_of_countP_eq_length inv.processed_nodup hc
  · rintro ⟨hnd, hsub⟩
    have := countP_mem_eq_length inv.processed_nodup hnd hsub
    omega

theorem KahnInv.processed_zero {g pending processed deg}
    (inv : KahnInv g pending processed deg) {p : String} (hp : p ∈ processed) :
    deg p = 0 := by
  obtain ⟨i, hi, rfl⟩ := List.getElem_of_mem hp
  refine (inv.zero_iff (inv.processed_sub _ hp)).mpr ⟨inv.closed_nodup i hi, ?_⟩
  intro d hd
  exact List.mem_of_mem_take (inv.closed i hi d hd)

/-- Processing one phase of the current batch preserves the invariant:
the phase moves to the end of `processed` and the dependents whose
in-degree reaches zero are appended to the pending schedule. -/
theorem step_inv {g : DependencyGraph} (hids : (ids g).Nodup) (p : String)
    {pend processed : List String} {deg : String → Int}
    (inv : KahnInv g (p :: pend) processed deg) :
    KahnInv g (pend ++ (dependents g p).filter (fun d => decide (deg d = 1)))
      (processed ++ [p])
      (fun x => if x ∈ dependents g p then deg x - 1 else deg x) := by
  have hpids : p ∈ ids g := inv.pending_sub p (List.mem_cons_self _ _)
  have hpnp : p ∉ processed := inv.pend_disj p (List.mem_cons_self _ _)
  have hpz : deg p = 0 := inv.pending_zero p (List.mem_cons_self _ _)
  obtain ⟨hdepnd, hdepsub⟩ := (inv.zero_iff hpids).mp hpz
  have hppend : p ∉ pend := (List.nodup_cons.mp inv.pending_nodup).1
  have hpendnd : pend.Nodup := (List.nodup_cons.mp inv.pending_nodup).2
  set Δ := (dependents g p).filter (fun d => decide (deg d = 1)) with hΔ
  have hΔmem : ∀ x ∈ Δ, x ∈ dependents g p ∧ deg x = 1 := by
    intro x hx
    exact ⟨List.mem_of_mem_filter hx, by simpa using List.of_mem_filter hx⟩
  have hΔnotproc : ∀ x ∈ Δ, x ∉ processed := by
    intro x hx hxp
    have := inv.processed_zero hxp
    have := (hΔmem x hx).2
    omega
  have hΔnotp : ∀ x ∈ Δ, x ≠ p := by
    intro x hx he
    have := (hΔmem x hx).2
    rw [he] at this
    omega
  have hpendΔ : ∀ x ∈ pend, x ∉ Δ := by
    intro x hx hxΔ
    have h0 := inv.pending_zero x (List.mem_cons_of_mem _ hx)
    have h1 := (hΔmem x hxΔ).2
    omega
  constructor
  case processed_nodup =>
    refine List.Nodup.append inv.processed_nodup (List.nodup_singleton p) ?_
    intro a ha hb
    rw [List.mem_singleton] at hb
    exact hpnp (hb ▸ ha)
  case processed_sub =>
    intro q hq
    rcases List.mem_append.mp hq with h | h
    · exact inv.processed_sub q h
    · rw [List.mem_singleton] at h; exact h ▸ hpids
  case pending_nodup =>
    refine List.Nodup.append hpendnd ((dependents_nodup hids p).filter _) hpendΔ
  case pending_sub =>
    intro q hq
    rcases List.mem_append.mp hq with h | h
    · exact inv.pending_sub q (List.mem_cons_of_mem _ h)
    · exact dependents_subset_ids (List.mem_of_mem_filter h)
  case pend_disj =>
    intro q hq hqp
    rcases List.mem_append.mp hqp with h | h
    · rcases List.mem_append.mp hq with h' | h'
      · exact inv.pend_disj q (List.mem_cons_of_mem _ h') h
      · exact hΔnotproc q h' h
    · rw [List.mem_singleton] at h
      subst h
      rcases List.mem_append.mp hq with h' | h'
      · exact hppend h'
      · exact hΔnotp q h' rfl
  case count =>
    intro r hr
    have hcnt : (processed ++ [p]).countP (fun d => decide (d ∈ deps g r))
        = processed.countP (fun d => decide (d ∈ deps g r))
          + (if p ∈ deps g r then 1 else 0) := by
      rw [List.countP_append, List.countP_singleton]
      by_cases hp : p ∈ deps g r <;> simp [hp]
    rw [hcnt]
    have hdep : r ∈ dependents g p ↔ p ∈ deps g r := by
      rw [mem_dependents_iff hids]
      exact ⟨fun h => h.2, fun h => ⟨hr, h⟩⟩
    by_cases hcase : r ∈ dependents g p
    · rw [if_pos hcase]
      have := inv.count r hr
      have hpd : p ∈ deps g r := hdep.mp hcase
      rw [if_pos hpd]
      omega
    · rw [if_neg hcase]
      have := inv.count r hr
      have hpd : p ∉ deps g r := fun h => hcase (hdep.mpr h)
      rw [if_neg hpd]
      omega
  case closed_nodup =>
    intro i hi
    rcases Nat.lt_or_ge i processed.length with h | h
    · rw [List.getElem_append_left h]
      exact inv.closed_nodup i h
    · have hlen : (processed ++ [p]).length = processed.length + 1 := by simp
      have hie : i = processed.length := by omega
      subst hie
      rw [List.getElem_concat_length _ _ _ rfl]
      exact hdepnd
  case closed =>
    intro i hi d hd
    rcases Nat.lt_or_ge i processed.length with h | h
    · rw [List.getElem_append_left h] at hd
      have := inv.closed i h d hd
      rw [List.take_append_of_le_length (Nat.le_of_lt h)]
      exact this
    · have hlen : (processed ++ [p]).length = processed.length + 1 := by simp
      have hie : i = processed.length := by omega
      subst hie
      rw [List.getElem_concat_length _ _ _ rfl] at hd
      rw [List.take_left]
      exact hdepsub d hd
  case pending_zero =>
    intro q hq
    rcases List.mem_append.mp hq with h | h
    · have hqz := inv.pending_zero q (List.mem_cons_of_mem _ h)
      have hqids := inv.pending_sub q (List.mem_cons_of_mem _ h)
      obtain ⟨_, hqsub⟩ := (inv.zero_iff hqids).mp hqz
      have hqnd : q ∉ dependents g p := by
        intro hqd
        have hpd : p ∈ deps g q := ((mem_dependents_iff hids).mp hqd).2
        exact hpnp (hqsub p hpd)
      rw [if_neg hqnd]
      exact hqz
    · obtain ⟨hmem, hone⟩ := hΔmem q h
      rw [if_pos hmem]
      omega
  case stuck_nonzero =>
    intro r hr hrproc hrpend
    have hrp : r ∉ processed := fun h => hrproc (List.mem_append.mpr (Or.inl h))
    have hrne : r ≠ p := by
      intro he
      exact hrproc (List.mem_append.mpr (Or.inr (by simp [he])))
    have hrpd : r ∉ pend := fun h => hrpend (List.mem_append.mpr (Or.inl h))
    have hrΔ : r ∉ Δ := fun h => hrpend (List.mem_append.mpr (Or.inr h))
    have hold : deg r ≠ 0 := inv.stuck_nonzero r hr hrp (by
      intro h
      rcases List.mem_cons.mp h with h' | h'
      · exact hrne h'
      · exact hrpd h')
    by_cases hcase : r ∈ dependents g p
    · rw [if_pos hcase]
      have hr1 : deg r ≠ 1 := by
        intro h1
        exact hrΔ (List.mem_filter.mpr ⟨hcase, by simpa using h1⟩)
      omega
    · rw [if_neg hcase]
      exact hold

/-- Running `process_batch` over the whole queue preserves the invariant,
appends the batch to both `processed` and the current wave, and leaves the
wave's number alone. -/
theorem process_batch_inv {g : DependencyGraph} (hids : (ids g).Nodup) :
    ∀ (batch : List String) (r : BatchResult),
      KahnInv g (batch ++ r.queue) r.processed r.in_degree →
      (∀ b ∈ batch, b ∉ r.wave.phases) →
      KahnInv g (process_batch g batch r).queue (process_batch g batch r).processed
        (process_batch g batch r).in_degree ∧
      (process_batch g batch r).processed = r.processed ++ batch ∧
      (process_batch g batch r).wave.phases = r.wave.phases ++ batch ∧
      (process_batch g batch r).wave.wave_number = r.wave.wave_number := by
  intro batch
  induction batch with
  | nil =>
    intro r hinv _
    rw [List.nil_append] at hinv
    exact ⟨hinv, by simp [process_batch], by simp [process_batch], by simp [process_batch]⟩
  | cons p rest ih =>
    intro r hinv hw
    have hinv' : KahnInv g (p :: (rest ++ r.queue)) r.processed r.in_degree := by
      simpa using hinv
    have hstep := step_inv hids p hinv'
    have hpnp : p ∉ r.processed := hinv'.pend_disj p (List.mem_cons_self _ _)
    have hpw : p ∉ r.wave.phases := hw p (List.mem_cons_self _ _)
    have hpnr : p ∉ rest := fun h =>
      (List.nodup_cons.mp hinv'.pending_nodup).1 (List.mem_append.mpr (Or.inl h))
    obtain ⟨hdegf, hdegq⟩ := decrement_dependents_spec (dependents g p)
      (dependents_nodup hids p) r.in_degree r.queue
    have hfeq : (decrement_dependents (dependents g p) r.in_degree r.queue).1
        = fun x => if x ∈ dependents g p then r.in_degree x - 1 else r.in_degree x :=
      funext hdegf
    simp only [process_batch]
    set r' : BatchResult :=
      { wave := wave_add_phase r.wave p
        processed := if p ∈ r.processed then r.processed else r.processed ++ [p]
        in_degree := (decrement_dependents (dependents g p) r.in_degree r.queue).1
        queue := (decrement_dependents (dependents g p) r.in_degree r.queue).2 } with hr'
    have hproc' : r'.processed = r.processed ++ [p] := by
      simp only [hr', if_neg hpnp]
    have hwave' : r'.wave.phases = r.wave.phases ++ [p] := by
      simp only [hr', wave_add_phase, if_neg hpw]
    have hwn' : r'.wave.wave_number = r.wave.wave_number := by
      simp only [hr', wave_add_phase, if_neg hpw]
    have hqueue' : r'.queue = r.queue ++
        (dependents g p).filter (fun d => decide (r.in_degree d = 1)) := by
      simp only [hr', hdegq]
    have hinvr' : KahnInv g (rest ++ r'.queue) r'.processed r'.in_degree := by
      rw [hproc', hqueue']
      have : r'.in_degree
          = fun x => if x ∈ dependents g p then r.in_degree x - 1 else r.in_degree x := by
        simp only [hr', hfeq]
      rw [this]
      have := step_inv hids p hinv'
      have hassoc : rest ++ (r.queue ++
            (dependents g p).filter (fun d => decide (r.in_degree d = 1)))
          = (rest ++ r.queue) ++
            (dependents g p).filter (fun d => decide (r.in_degree d = 1)) := by
        rw [List.append_assoc]
      rw [hassoc]
      exact this
    have hwrest : ∀ b ∈ rest, b ∉ r'.wave.phases := by
      intro b hb
      rw [hwave']
      intro hmem
      rcases List.mem_append.mp hmem with h | h
      · exact hw b (List.mem_cons_of_mem _ hb) h
      · rw [List.mem_singleton] at h
        exact hpnr (h ▸ hb)
    obtain ⟨ha, hb, hc, hd⟩ := ih r' hinvr' hwrest
    refine ⟨ha, ?_, ?_, ?_⟩
    · rw [hb, hproc', List.append_assoc]
      rfl
    · rw [hc, hwave', List.append_assoc]
      rfl
    · rw [hd, hwn']

/-! ### The loop-level invariant -/


theorem remaining_drop {g : DependencyGraph} (hids : (ids g).Nodup)
    {processed batch : List String} (hbn : batch.Nodup)
    (hbsub : ∀ b ∈ batch, b ∈ ids g) (hbd : ∀ b ∈ batch, b ∉ processed) :
    ((ids g).filter (fun p => decide (p ∉ processed ++ batch))).length + batch.length
      = ((ids g).filter (fun p => decide (p ∉ processed))).length := by
  have hsplit : (ids g).filter (fun p => decide (p ∉ processed ++ batch))
      = ((ids g).filter (fun p => decide (p ∉ processed))).filter
          (fun p => decide (p ∉ batch)) := by
    rw [List.filter_filter]
    apply List.filter_congr
    intro x _
    by_cases h1 : x ∈ processed <;> by_cases h2 : x ∈ batch <;>
      simp [h1, h2, List.mem_append]
  rw [hsplit]
  set L := (ids g).filter (fun p => decide (p ∉ processed)) with hL
  have hLnd : L.Nodup := hids.filter _
  have hbL : ∀ b ∈ batch, b ∈ L := by
    intro b hb
    rw [hL]
    exact List.mem_filter.mpr ⟨hbsub b hb, by simpa using hbd b hb⟩
  have hcount : L.countP (fun d => decide (d ∈ batch)) = batch.length :=
    countP_mem_eq_length hLnd hbn hbL
  have htotal := List.length_eq_countP_add_countP (p := fun d => decide (d ∈ batch)) L
  have hfl : (L.filter (fun p => decide (p ∉ batch))).length
      = L.countP (fun a => ¬ decide (a ∈ batch)) := by
    rw [List.countP_eq_length_filter]
    congr 1
    apply List.filter_congr
    intro x _
    by_cases h : x ∈ batch <;> simp [h]
  omega

/-- The loop runs to completion: with fuel exceeding the number of
unprocessed node ids, `kahn_loop` terminates with an empty queue and the
loop invariant intact. -/
theorem kahn_loop_spec {g : DependencyGraph} (hids : (ids g).Nodup) :
    ∀ (fuel : Nat) (s : KahnState), LoopInv g s →
    ((ids g).filter (fun p => decide (p ∉ s.processed))).length < fuel →
    LoopInv g (kahn_loop g fuel s) ∧ (kahn_loop g fuel s).queue = [] := by
  intro fuel
  induction fuel with
  | zero => intro s _ h; omega
  | succ fuel ih =>
    intro s hli hfuel
    by_cases hq : s.queue = []
    · simp only [kahn_loop, if_pos hq]
      exact ⟨hli, hq⟩
    · simp only [kahn_loop, if_neg hq]
      set r0 : BatchResult :=
        { wave := mkWave s.wave_number, processed := s.processed,
          in_degree := s.in_degree, queue := [] } with hr0
      have hinv0 : KahnInv g (s.queue ++ r0.queue) r0.processed r0.in_degree := by
        simp only [hr0, List.append_nil]
        exact hli.inv
      have hw0 : ∀ b ∈ s.queue, b ∉ r0.wave.phases := by
        intro b _
        simp [hr0, mkWave]
      obtain ⟨hainv, haproc, hawave, hawn⟩ := process_batch_inv hids s.queue r0 hinv0 hw0
      set r := process_batch g s.queue r0 with hr
      have hrproc : r.processed = s.processed ++ s.queue := by
        rw [haproc]
      have hrwave : r.wave.phases = s.queue := by
        rw [hawave]
        simp [hr0, mkWave]
      have hrwn : r.wave.wave_number = s.wave_number := by
        rw [hawn]
        simp [hr0, mkWave]
      have hwne : ¬ r.wave.phases = [] := by
        rw [hrwave]; exact hq
      rw [if_neg hwne]
      set s' : KahnState :=
        { queue := r.queue, in_degree := r.in_degree, processed := r.processed,
          waves := s.waves ++ [r.wave], wave_number := s.wave_number + 1 } with hs'
      have hqnd : s.queue.Nodup := hli.inv.pending_nodup
      have hqsub : ∀ b ∈ s.queue, b ∈ ids g := hli.inv.pending_sub
      have hqdisj : ∀ b ∈ s.queue, b ∉ s.processed := hli.inv.pend_disj
      have hli' : LoopInv g s' := by
        constructor
        case inv => exact hainv
        case flatten_eq =>
          simp only [hs', List.map_append, List.flatten_append, hli.flatten_eq, hrproc]
          simp [hrwave]
        case wnum =>
          simp only [hs', List.length_append, hli.wnum]
          simp
        case numbering =>
          intro i hi
          simp only [hs', List.length_append, List.length_singleton] at hi
          rcases Nat.lt_or_ge i s.waves.length with h | h
          · simp only [hs']
            rw [List.getElem_append_left h]
            exact hli.numbering i h
          · have hie : i = s.waves.length := by omega
            subst hie
            simp only [hs']
            rw [List.getElem_concat_length _ _ _ rfl]
            rw [hrwn, hli.wnum]
        case ordered =>
          intro i hi p hp d hd
          simp only [hs', List.length_append, List.length_singleton] at hi
          rcases Nat.lt_or_ge i s.waves.length with h | h
          · simp only [hs'] at hp ⊢
            rw [List.getElem_append_left h] at hp
            obtain ⟨j, hj, hji, hdj⟩ := hli.ordered i h p hp d hd
            refine ⟨j, by simp only [List.length_append]; omega, hji, ?_⟩
            rw [List.getElem_append_left hj]
            exact hdj
          · have hie : i = s.waves.length := by omega
            subst hie
            simp only [hs'] at hp ⊢
            rw [List.getElem_concat_length _ _ _ rfl] at hp
            rw [hrwave] at hp
            have hdz : s.in_degree p = 0 := hli.inv.pending_zero p hp
            obtain ⟨_, hsub⟩ := (hli.inv.zero_iff (hqsub p hp)).mp hdz
            have hdp : d ∈ s.processed := hsub d hd
            rw [← hli.flatten_eq] at hdp
            obtain ⟨l, hl, hdl⟩ := List.mem_flatten.mp hdp
            obtain ⟨w, hw, rfl⟩ := List.mem_map.mp hl
            obtain ⟨j, hj, rfl⟩ := List.getElem_of_mem hw
            refine ⟨j, by simp only [List.length_append]; omega, by omega, ?_⟩
            rw [List.getElem_append_left hj]
            exact hdl
      have hrem : ((ids g).filter (fun p => decide (p ∉ s'.processed))).length < fuel := by
        have hdrop := remaining_drop hids hqnd hqsub hqdisj
        have hlen : 1 ≤ s.queue.length := by
          cases hqe : s.queue with
          | nil => exact absurd hqe hq
          | cons a l => simp
        have hps' : s'.processed = s.processed ++ s.queue := by
          simp only [hs', hrproc]
        rw [hps']
        omega
      exact ih s' hli' hrem

/-- The initial state of `calculate_execution_waves` satisfies the loop
invariant. -/
theorem init_loop_inv {g : DependencyGraph} (hids : (ids g).Nodup) :
    LoopInv g
      { queue := (g.nodes.filter (fun ph => decide (ph.dependencies.length = 0))).map (·.id),
        in_degree := in_degrees g, processed := [], waves := [], wave_number := 0 } := by
  have hseedmem : ∀ p, p ∈ (g.nodes.filter
      (fun ph => decide (ph.dependencies.length = 0))).map (·.id) ↔
      ∃ ph ∈ g.nodes, ph.id = p ∧ ph.dependencies.length = 0 := by
    intro p
    simp only [List.mem_map, List.mem_filter, decide_eq_true_eq]
    constructor
    · rintro ⟨ph, ⟨hm, hz⟩, rfl⟩; exact ⟨ph, hm, rfl, hz⟩
    · rintro ⟨ph, hm, rfl, hz⟩; exact ⟨ph, ⟨hm, hz⟩, rfl⟩
  constructor
  case inv =>
    constructor
    case processed_nodup => exact List.nodup_nil
    case processed_sub => intro p hp; cases hp
    case pending_nodup =>
      have hsub : List.Sublist
          ((g.nodes.filter (fun ph => decide (ph.dependencies.length = 0))).map (·.id))
          (g.nodes.map (·.id)) := (List.filter_sublist _).map _
      exact hids.sublist hsub
    case pending_sub =>
      intro p hp
      obtain ⟨ph, hm, rfl, _⟩ := (hseedmem p).mp hp
      exact List.mem_map_of_mem _ hm
    case pend_disj => intro p _ hp; cases hp
    case count =>
      intro p hp
      obtain ⟨ph, hm, rfl⟩ := mem_ids_iff.mp hp
      simp only [List.countP_nil, in_degrees, find_phase_of_mem hids hm,
        deps_of_mem hids hm]
      omega
    case closed_nodup => intro i hi; cases hi
    case closed => intro i hi; cases hi
    case pending_zero =>
      intro p hp
      obtain ⟨ph, hm, rfl, hz⟩ := (hseedmem p).mp hp
      simp [in_degrees, find_phase_of_mem hids hm, hz]
    case stuck_nonzero =>
      intro p hp _ hpend
      obtain ⟨ph, hm, rfl⟩ := mem_ids_iff.mp hp
      have hz : ph.dependencies.length ≠ 0 := by
        intro h
        exact hpend ((hseedmem ph.id).mpr ⟨ph, hm, rfl, h⟩)
      simp only [in_degrees, find_phase_of_mem hids hm]
      omega
  case flatten_eq => rfl
  case wnum => rfl
  case numbering => intro i hi; cases hi
  case ordered => intro i hi; cases hi

/-! ### Uniqueness of wave membership -/

theorem countP_flatten_not_mem {p : String} :
    ∀ (ls : List (List String)), p ∉ ls.flatten →
    ls.countP (fun l => decide (p ∈ l)) = 0 := by
  intro ls
  induction ls with
  | nil => intro _; rfl
  | cons l rest ih =>
    intro hp
    rw [List.flatten] at hp
    have hpl : p ∉ l := fun h => hp (List.mem_append.mpr (Or.inl h))
    have hpr : p ∉ rest.flatten := fun h => hp (List.mem_append.mpr (Or.inr h))
    rw [List.countP_cons, ih hpr]
    simp [hpl]

theorem countP_flatten_unique {p : String} :
    ∀ (ls : List (List String)), ls.flatten.Nodup → p ∈ ls.flatten →
    ls.countP (fun l => decide (p ∈ l)) = 1 := by
  intro ls
  induction ls with
  | nil => intro _ h; cases h
  | cons l rest ih =>
    intro hnd hp
    rw [List.flatten] at hnd hp
    have hdisj := List.disjoint_of_nodup_append hnd
    rw [List.countP_cons]
    rcases List.mem_append.mp hp with h | h
    · have hnr : p ∉ rest.flatten := fun hr => hdisj h hr
      rw [countP_flatten_not_mem rest hnr]
      simp [h]
    · have hnl : p ∉ l := fun hl => hdisj hl h
      rw [ih (hnd.of_append_right) h]
      simp [hnl]

theorem flatten_nodup_mem_unique {p : String} :
    ∀ (ls : List (List String)) (i j : Nat) (hi : i < ls.length) (hj : j < ls.length),
    ls.flatten.Nodup → p ∈ ls[i] → p ∈ ls[j] → i = j := by
  intro ls
  induction ls with
  | nil => intro i j hi _ _ _ _; cases hi
  | cons l rest ih =>
    intro i j hi hj hnd hpi hpj
    rw [List.flatten] at hnd
    have hdisj := List.disjoint_of_nodup_append hnd
    match i, j with
    | 0, 0 => rfl
    | 0, j + 1 =>
      exfalso
      have hj' : j < rest.length := by simpa using hj
      have : p ∈ rest.flatten := by
        simp only [List.getElem_cons_succ] at hpj
        exact List.mem_flatten.mpr ⟨rest[j], List.getElem_mem _, hpj⟩
      exact hdisj (by simpa using hpi) this
    | i + 1, 0 =>
      exfalso
      have hi' : i < rest.length := by simpa using hi
      have : p ∈ rest.flatten := by
        simp only [List.getElem_cons_succ] at hpi
        exact List.mem_flatten.mpr ⟨rest[i], List.getElem_mem _, hpi⟩
      exact hdisj (by simpa using hpj) this
    | i + 1, j + 1 =>
      simp only [List.getElem_cons_succ] at hpi hpj
      have := ih i j (by simpa using hi) (by simpa using hj) hnd.of_append_right hpi hpj
      omega

/-! ### C1 / C2: the wave-scheduling claims -/

/-- C1: For every acyclic dependency graph, `calculate_execution_waves`
returns a list of waves in which every phase of the graph appears in
exactly one wave, and each phase's wave number is strictly greater than
the wave number of every one of its dependencies.

Hypotheses record that the input is a well-formed `DependencyGraph`: the
node dict's keys (= phase ids) are distinct, dependency lists are sets of
existing phase ids (the spec's data model declares dependencies to be a
set, and unknown dependency ids are a graph-construction error), and
acyclicity is given by a rank function compatible with the edges. -/
theorem calculate_execution_waves_acyclic_correct
    (g : DependencyGraph)
    (hids : (ids g).Nodup)
    (hwf : ∀ ph ∈ g.nodes, ph.dependencies.Nodup ∧ ∀ d ∈ ph.dependencies, d ∈ ids g)
    (hacyc : ∃ rank : String → Nat, ∀ ph ∈ g.nodes, ∀ d ∈ ph.dependencies,
      rank d < rank ph.id) :
    ∃ waves, calculate_execution_waves g = .ok waves ∧
      (∀ p ∈ ids g, waves.countP (fun w => decide (p ∈ w.phases)) = 1) ∧
      (∀ i (hi : i < waves.length), waves[i].wave_number = i) ∧
      (∀ i (hi : i < waves.length), ∀ p ∈ waves[i].phases, ∀ d ∈ deps g p,
        ∀ j (hj : j < waves.length), d ∈ waves[j].phases →
          waves[j].wave_number < waves[i].wave_number) := by
  obtain ⟨rank, hrank⟩ := hacyc
  set s0 : KahnState :=
    { queue := (g.nodes.filter (fun ph => decide (ph.dependencies.length = 0))).map (·.id),
      in_degree := in_degrees g, processed := [], waves := [], wave_number := 0 } with hs0
  have hinit : LoopInv g s0 := init_loop_inv hids
  have hrem : ((ids g).filter (fun p => decide (p ∉ s0.processed))).length
      < g.nodes.length + 1 := by
    have h1 : ((ids g).filter (fun p => decide (p ∉ s0.processed))).length
        ≤ (ids g).length := List.length_filter_le _ _
    have h2 : (ids g).length = g.nodes.length := List.length_map _ _
    omega
  obtain ⟨hlt, hqe⟩ := kahn_loop_spec hids (g.nodes.length + 1) s0 hinit hrem
  set t := kahn_loop g (g.nodes.length + 1) s0 with ht
  have hcompl : ∀ x ∈ ids g, x ∈ t.processed := by
    have aux : ∀ (k : Nat) (x : String), x ∈ ids g → rank x < k → x ∈ t.processed := by
      intro k
      induction k with
      | zero => intro x _ h; omega
      | succ k ihk =>
        intro x hx hrk
        by_contra hxp
        have hnotq : x ∉ t.queue := by rw [hqe]; simp
        have hdz := hlt.inv.stuck_nonzero x hx hxp hnotq
        obtain ⟨ph, hm, rfl⟩ := mem_ids_iff.mp hx
        have hdeps : deps g ph.id = ph.dependencies := deps_of_mem hids hm
        have hsub : ∀ d ∈ deps g ph.id, d ∈ t.processed := by
          intro d hd
          rw [hdeps] at hd
          have hdid : d ∈ ids g := (hwf ph hm).2 d hd
          have hdr : rank d < rank ph.id := hrank ph hm d hd
          exact ihk d hdid (by omega)
        have hnd : (deps g ph.id).Nodup := by rw [hdeps]; exact (hwf ph hm).1
        exact hdz ((hlt.inv.zero_iff hx).mpr ⟨hnd, hsub⟩)
    intro x hx
    exact aux (rank x + 1) x hx (by omega)
  have hperm : List.Perm t.processed (ids g) := by
    rw [List.perm_ext_iff_of_nodup hlt.inv.processed_nodup hids]
    intro a
    exact ⟨fun h => hlt.inv.processed_sub a h, fun h => hcompl a h⟩
  have hlen : t.processed.length = g.nodes.length := by
    rw [hperm.length_eq]
    exact List.length_map _ _
  refine ⟨t.waves, ?_, ?_, ?_, ?_⟩
  · simp only [calculate_execution_waves]
    rw [← hs0, ← ht, if_pos hlen]
  · intro p hp
    have hpproc : p ∈ t.processed := hcompl p hp
    have hjnd : (t.waves.map (·.phases)).flatten.Nodup := by
      rw [hlt.flatten_eq]; exact hlt.inv.processed_nodup
    have hjmem : p ∈ (t.waves.map (·.phases)).flatten := by
      rw [hlt.flatten_eq]; exact hpproc
    have := countP_flatten_unique (t.waves.map (·.phases)) hjnd hjmem
    rw [List.countP_map] at this
    exact this
  · exact hlt.numbering
  · intro i hi p hp d hd j hj hdj
    obtain ⟨j0, hj0, hj0i, hdj0⟩ := hlt.ordered i hi p hp d hd
    have hjnd : (t.waves.map (·.phases)).flatten.Nodup := by
      rw [hlt.flatten_eq]; exact hlt.inv.processed_nodup
    have hjj0 : j = j0 := by
      apply flatten_nodup_mem_unique (t.waves.map (·.phases)) j j0
        (by simpa using hj) (by simpa using hj0) hjnd
      · rw [List.getElem_map]; exact hdj
      · rw [List.getElem_map]; exact hdj0
    rw [hlt.numbering i hi, hlt.numbering j hj]
    omega


theorem DepReaches.mem_ids {g : DependencyGraph} {a b : String}
    (h : DepReaches g a b) : a ∈ ids g := by
  induction h with
  | step hb =>
    rename_i a' b'
    unfold deps at hb
    cases hf : find_phase g a' with
    | none => rw [hf] at hb; cases hb
    | some ph =>
      obtain ⟨hid, hm⟩ := find_phase_spec hf
      exact mem_ids_iff.mpr ⟨ph, hm, hid⟩
  | trans _ _ iha _ => exact iha

/-- Along the processed list, dependency-reachable phases occur strictly
earlier. -/
theorem reach_before {g : DependencyGraph} {processed : List String}
    (hclosed : ∀ i (hi : i < processed.length), ∀ d ∈ deps g processed[i],
      d ∈ processed.take i) :
    ∀ {a b : String}, DepReaches g a b →
    ∀ i (hi : i < processed.length), processed[i] = a →
    ∃ j, ∃ hj : j < processed.length, j < i ∧ processed[j] = b := by
  intro a b hr
  induction hr with
  | step hb =>
    intro i hi he
    rename_i a' b'
    subst he
    have := hclosed i hi b' hb
    obtain ⟨j, hj, hje⟩ := List.getElem_of_mem this
    have hjlen : j < processed.length := by
      have := List.length_take_le i processed
      omega
    refine ⟨j, hjlen, ?_, ?_⟩
    · have : (processed.take i).length = min i processed.length := List.length_take _ _
      omega
    · rw [List.getElem_take] at hje
      exact hje
  | trans h1 h2 ih1 ih2 =>
    intro i hi he
    obtain ⟨j, hj, hji, hje⟩ := ih1 i hi he
    obtain ⟨k, hk, hkj, hke⟩ := ih2 j hj hje
    exact ⟨k, hk, by omega, hke⟩

/-- C2: For every dependency graph containing a cycle,
`calculate_execution_waves` fails with the set of unprocessed phase ids,
and that set contains a phase lying on a cycle (here, the given witness
`p` with `DepReaches g p p`). -/
theorem calculate_execution_waves_cycle_error
    (g : DependencyGraph) (hids : (ids g).Nodup)
    (p : String) (hcyc : DepReaches g p p) :
    ∃ unprocessed, calculate_execution_waves g = .error unprocessed ∧
      p ∈ unprocessed := by
  set s0 : KahnState :=
    { queue := (g.nodes.filter (fun ph => decide (ph.dependencies.length = 0))).map (·.id),
      in_degree := in_degrees g, processed := [], waves := [], wave_number := 0 } with hs0
  have hinit : LoopInv g s0 := init_loop_inv hids
  have hrem : ((ids g).filter (fun q => decide (q ∉ s0.processed))).length
      < g.nodes.length + 1 := by
    have h1 : ((ids g).filter (fun q => decide (q ∉ s0.processed))).length
        ≤ (ids g).length := List.length_filter_le _ _
    have h2 : (ids g).length = g.nodes.length := List.length_map _ _
    omega
  obtain ⟨hlt, _⟩ := kahn_loop_spec hids (g.nodes.length + 1) s0 hinit hrem
  set t := kahn_loop g (g.nodes.length + 1) s0 with ht
  have hpids : p ∈ ids g := hcyc.mem_ids
  have hpnp : p ∉ t.processed := by
    intro hp
    obtain ⟨i, hi, hie⟩ := List.getElem_of_mem hp
    obtain ⟨j, hj, hji, hje⟩ := reach_before hlt.inv.closed hcyc i hi hie
    have : i = j := by
      have := hlt.inv.processed_nodup
      exact (List.Nodup.getElem_inj_iff this).mp (by rw [hie, hje])
    omega
  have hlen : ¬ t.processed.length = g.nodes.length := by
    intro hl
    have hsp : List.Subperm t.processed (ids g) :=
      hlt.inv.processed_nodup.subperm hlt.inv.processed_sub
    have hperm : List.Perm t.processed (ids g) := by
      apply hsp.perm_of_length_le
      rw [hl]
      have : (ids g).length = g.nodes.length := List.length_map _ _
      omega
    exact hpnp (hperm.symm.subset hpids)
  refine ⟨(ids g).filter (fun q => decide (q ∉ t.processed)), ?_, ?_⟩
  · simp only [calculate_execution_waves]
    rw [← hs0, ← ht, if_neg hlen]
  · exact List.mem_filter.mpr ⟨hpids, by simpa using hpnp⟩

/-- Witness for C1 at the concrete acyclic graph `gW`. -/
theorem calculate_execution_waves_acyclic_correct_witness :
    (ids gW).Nodup ∧
    (∀ ph ∈ gW.nodes, ph.dependencies.Nodup ∧ ∀ d ∈ ph.dependencies, d ∈ ids gW) ∧
    (∃ waves, calculate_execution_waves gW = .ok waves ∧
      (∀ p ∈ ids gW, waves.countP (fun w => decide (p ∈ w.phases)) = 1) ∧
      (∀ i (hi : i < waves.length), waves[i].wave_number = i) ∧
      (∀ i (hi : i < waves.length), ∀ p ∈ waves[i].phases, ∀ d ∈ deps gW p,
        ∀ j (hj : j < waves.length), d ∈ waves[j].phases →
          waves[j].wave_number < waves[i].wave_number)) :=
  ⟨by decide, by decide,
    calculate_execution_waves_acyclic_correct gW (by decide) (by decide)
      ⟨rankW, by decide⟩⟩

/-- Witness for C2 at the concrete cyclic graph `gCyc`. -/
theorem calculate_execution_waves_cycle_error_witness :
    (ids gCyc).Nodup ∧ DepReaches gCyc "X" "X" ∧
    (∃ unprocessed, calculate_execution_waves gCyc = .error unprocessed ∧
      "X" ∈ unprocessed) := by
  have hxy : "Y" ∈ deps gCyc "X" := by decide
  have hyx : "X" ∈ deps gCyc "Y" := by decide
  exact ⟨by decide, DepReaches.trans (.step hxy) (.step hyx),
    calculate_execution_waves_cycle_error gCyc (by decide) "X"
      (DepReaches.trans (.step hxy) (.step hyx))⟩

/-! ### C8: wave distribution optimization -/

theorem insert_desc_perm (cache : String → Option PhaseInfo) (p : String) :
    ∀ l, List.Perm (insert_desc cache p l) (p :: l) := by
  intro l
  induction l with
  | nil => simp [insert_desc]
  | cons q rest ih =>
    simp only [insert_desc]
    by_cases h : phase_time cache q < phase_time cache p
    · rw [if_pos h]
    · rw [if_neg h]
      exact (ih.cons q).trans (List.Perm.swap p q rest)

theorem sort_desc_perm (cache : String → Option PhaseInfo) :
    ∀ l, List.Perm (sort_desc cache l) l := by
  intro l
  induction l with
  | nil => simp [sort_desc]
  | cons p rest ih =>
    simp only [sort_desc]
    exact (insert_desc_perm cache p _).trans (ih.cons p)

theorem insert_desc_pairwise (cache : String → Option PhaseInfo) (p : String) :
    ∀ l, l.Pairwise (fun a b => phase_time cache b ≤ phase_time cache a) →
    (insert_desc cache p l).Pairwise (fun a b => phase_time cache b ≤ phase_time cache a) := by
  intro l
  induction l with
  | nil => intro _; simp [insert_desc]
  | cons q rest ih =>
    intro hpw
    obtain ⟨hq, hrest⟩ := List.pairwise_cons.mp hpw
    simp only [insert_desc]
    by_cases h : phase_time cache q < phase_time cache p
    · rw [if_pos h]
      refine List.pairwise_cons.mpr ⟨?_, hpw⟩
      intro b hb
      rcases List.mem_cons.mp hb with rfl | hb'
      · omega
      · have := hq b hb'
        omega
    · rw [if_neg h]
      refine List.pairwise_cons.mpr ⟨?_, ih hrest⟩
      intro b hb
      have hmem : b ∈ p :: rest := (insert_desc_perm cache p rest).subset hb
      rcases List.mem_cons.mp hmem with rfl | hb'
      · omega
      · exact hq b hb'

theorem sort_desc_pairwise (cache : String → Option PhaseInfo) :
    ∀ l, (sort_desc cache l).Pairwise
      (fun a b => phase_time cache b ≤ phase_time cache a) := by
  intro l
  induction l with
  | nil => simp [sort_desc]
  | cons p rest ih =>
    simp only [sort_desc]
    exact insert_desc_pairwise cache p _ ih

theorem chunk_loop_spec (wn : Nat) (m : Int) (hm : 0 < m) :
    ∀ (l : List String) (current : ExecutionWave),
      current.wave_number = wn →
      (current.phases.length : Int) ≤ m →
      l.Nodup → (∀ x ∈ l, x ∉ current.phases) →
      ((chunk_loop wn m l current).map (fun w => w.phases)).flatten
          = current.phases ++ l ∧
      (∀ w ∈ chunk_loop wn m l current,
        (w.phases.length : Int) ≤ m ∧ w.wave_number = wn) := by
  intro l
  induction l with
  | nil =>
    intro current hwn hlen _ _
    simp only [chunk_loop]
    by_cases h : current.phases.isEmpty
    · rw [if_pos h]
      have : current.phases = [] := List.isEmpty_iff.mp h
      simp [this]
    · rw [if_neg h]
      constructor
      · simp
      · intro w hw
        rw [List.mem_singleton] at hw
        subst hw
        exact ⟨hlen, hwn⟩
  | cons pid rest ih =>
    intro current hwn hlen hnd hdisj
    have hpidr : pid ∉ rest := (List.nodup_cons.mp hnd).1
    have hrestnd : rest.Nodup := (List.nodup_cons.mp hnd).2
    simp only [chunk_loop]
    by_cases h : m ≤ (current.phases.length : Int)
    · rw [if_pos h]
      have hadd : wave_add_phase (mkWave wn) pid
          = { wave_number := wn, phases := [pid], start_time := none,
              end_time := none, status := "pending" } := by
        simp [wave_add_phase, mkWave]
      obtain ⟨hjoin, hall⟩ := ih (wave_add_phase (mkWave wn) pid)
        (by rw [hadd]) (by rw [hadd]; simpa using hm) hrestnd
        (by
          intro x hx
          rw [hadd]
          simp only [List.mem_singleton]
          intro he
          exact hpidr (he ▸ hx))
      constructor
      · rw [List.map_cons, List.flatten_cons, hjoin, hadd]
        simp
      · intro w hw
        rcases List.mem_cons.mp hw with rfl | hw'
        · exact ⟨by omega, hwn⟩
        · exact hall w hw'
    · rw [if_neg h]
      have hpidnc : pid ∉ current.phases := hdisj pid (List.mem_cons_self _ _)
      have hadd : wave_add_phase current pid
          = { current with phases := current.phases ++ [pid] } := by
        simp [wave_add_phase, hpidnc]
      obtain ⟨hjoin, hall⟩ := ih (wave_add_phase current pid)
        (by rw [hadd]; exact hwn)
        (by rw [hadd]; simp only [List.length_append, List.length_singleton]; push_cast; omega)
        hrestnd
        (by
          intro x hx
          rw [hadd]
          simp only [List.mem_append, List.mem_singleton]
          rintro (hc | rfl)
          · exact hdisj x (List.mem_cons_of_mem _ hx) hc
          · exact hpidr hx)
      constructor
      · rw [hjoin, hadd]
        simp
      · exact hall

theorem renumber_length : ∀ (L : List ExecutionWave) (i : Nat),
    (renumber i L).length = L.length := by
  intro L
  induction L with
  | nil => intro i; rfl
  | cons w rest ih => intro i; simp [renumber, ih]

theorem renumber_wave_number : ∀ (L : List ExecutionWave) (i j : Nat)
    (hj : j < (renumber i L).length), ((renumber i L)[j]).wave_number = i + j := by
  intro L
  induction L with
  | nil => intro i j hj; simp [renumber] at hj
  | cons w rest ih =>
    intro i j hj
    match j with
    | 0 => simp [renumber]
    | j + 1 =>
      simp only [renumber] at hj ⊢
      rw [List.getElem_cons_succ]
      rw [ih (i + 1) j (by simpa using hj)]
      omega

theorem forall₂_map_self {α β : Type} (rel : α → β → Prop) (f : α → β) :
    ∀ (L : List α), (∀ w ∈ L, rel w (f w)) → List.Forall₂ rel L (L.map f) := by
  intro L
  induction L with
  | nil => intro _; simp
  | cons w rest ih =>
    intro h
    rw [List.map_cons]
    exact List.Forall₂.cons (h w (List.mem_cons_self _ _))
      (ih (fun x hx => h x (List.mem_cons_of_mem _ hx)))

/-- C8: For every wave list and every `maxConcurrency > 0`,
`optimize_wave_distribution` keeps waves with at most `maxConcurrency`
phases (as a singleton block), splits each oversized wave into consecutive
sub-waves of at most `maxConcurrency` phases whose concatenation is the
wave's phases sorted by descending estimated duration (hence a
permutation, preserving the multiset), and renumbers the whole result
sequentially.  Phase lists are sets (`ExecutionWave.add_phase`
deduplicates), recorded by the `Nodup` hypothesis. -/
theorem optimize_wave_distribution_spec (cache : String → Option PhaseInfo)
    (waves : List ExecutionWave) (m : Int) (hm : 0 < m)
    (hnd : ∀ w ∈ waves, w.phases.Nodup) :
    ∃ blocks : List (List ExecutionWave),
      optimize_wave_distribution cache waves m = renumber 0 blocks.flatten ∧
      List.Forall₂ (fun (w : ExecutionWave) (blk : List ExecutionWave) =>
        ((w.phases.length : Int) ≤ m → blk = [w]) ∧
        (m < (w.phases.length : Int) →
          (∀ sw ∈ blk, (sw.phases.length : Int) ≤ m ∧
            sw.wave_number = w.wave_number) ∧
          List.Perm ((blk.map (fun sw => sw.phases)).flatten) w.phases ∧
          ((blk.map (fun sw => sw.phases)).flatten).Pairwise
            (fun a b => phase_time cache b ≤ phase_time cache a))) waves blocks ∧
      (∀ j (hj : j < (optimize_wave_distribution cache waves m).length),
        ((optimize_wave_distribution cache waves m)[j]).wave_number = j) := by
  have hopt : optimize_wave_distribution cache waves m
      = renumber 0 ((waves.map (fun w =>
          if (w.phases.length : Int) ≤ m then [w]
          else split_wave cache w m)).flatten) := by
    simp only [optimize_wave_distribution]
    rw [if_neg (by omega)]
  refine ⟨waves.map (fun w =>
      if (w.phases.length : Int) ≤ m then [w] else split_wave cache w m),
    hopt, ?_, ?_⟩
  · apply forall₂_map_self
    intro w hw
    by_cases hcase : (w.phases.length : Int) ≤ m
    · rw [if_pos hcase]
      exact ⟨fun _ => rfl, fun hlt => absurd hcase (by omega)⟩
    · rw [if_neg hcase]
      refine ⟨fun hle => absurd hle hcase, fun _ => ?_⟩
      have hsortnd : (sort_desc cache w.phases).Nodup :=
        ((sort_desc_perm cache w.phases).nodup_iff).mpr (hnd w hw)
      obtain ⟨hjoin, hall⟩ := chunk_loop_spec w.wave_number m hm
        (sort_desc cache w.phases) (mkWave w.wave_number) rfl
        (by simp only [mkWave, List.length_nil, Nat.cast_zero]; omega)
        hsortnd (by simp [mkWave])
      have hjoin' : ((split_wave cache w m).map (fun sw => sw.phases)).flatten
          = sort_desc cache w.phases := by
        rw [split_wave, hjoin]
        simp [mkWave]
      refine ⟨?_, ?_, ?_⟩
      · intro sw hsw
        exact hall sw hsw
      · rw [hjoin']
        exact sort_desc_perm cache w.phases
      · rw [hjoin']
        exact sort_desc_pairwise cache w.phases
  · intro j hj
    have hj2 : j < (renumber 0 ((waves.map (fun w =>
        if (w.phases.length : Int) ≤ m then [w]
        else split_wave cache w m)).flatten)).length := by
      rw [← hopt]; exact hj
    rw [List.getElem_of_eq hopt hj]
    rw [renumber_wave_number _ 0 j hj2]
    omega

/-- Witness for C8: the spec's five-phase wave with `maxConcurrency = 2`. -/
theorem optimize_wave_distribution_spec_witness :
    (0 : Int) < 2 ∧ (∀ w ∈ [waveW], w.phases.Nodup) ∧
    (∃ blocks : List (List ExecutionWave),
      optimize_wave_distribution cacheW [waveW] 2 = renumber 0 blocks.flatten ∧
      List.Forall₂ (fun (w : ExecutionWave) (blk : List ExecutionWave) =>
        ((w.phases.length : Int) ≤ 2 → blk = [w]) ∧
        (2 < (w.phases.length : Int) →
          (∀ sw ∈ blk, (sw.phases.length : Int) ≤ 2 ∧
            sw.wave_number = w.wave_number) ∧
          List.Perm ((blk.map (fun sw => sw.phases)).flatten) w.phases ∧
          ((blk.map (fun sw => sw.phases)).flatten).Pairwise
            (fun a b => phase_time cacheW b ≤ phase_time cacheW a))) [waveW] blocks ∧
      (∀ j (hj : j < (optimize_wave_distribution cacheW [waveW] 2).length),
        ((optimize_wave_distribution cacheW [waveW] 2)[j]).wave_number = j)) :=
  ⟨by decide, by decide, optimize_wave_distribution_spec cacheW [waveW] 2
    (by decide) (by decide)⟩

/-! ### Association-list lemmas for the registry dicts -/

theorem alGet_map_at {β : Type} (k : String) (f : β → β) :
    ∀ (l : List (String × β)) (q : String),
    alGet (l.map (fun e => if e.1 = k then (e.1, f e.2) else e)) q
      = if q = k then (alGet l k).map f else alGet l q := by
  intro l
  induction l with
  | nil => intro q; by_cases h : q = k <;> simp [alGet, h]
  | cons e rest ih =>
    intro q
    simp only [List.map_cons]
    by_cases hek : e.1 = k
    · rw [if_pos hek]
      by_cases hqe : q = e.1
      · have hqk : q = k := hqe.trans hek
        simp only [alGet, if_pos hqe, if_pos hqk, if_pos hek.symm, Option.map_some']
      · have hqk : q ≠ k := fun h => hqe (h.trans hek.symm)
        simp only [alGet, if_neg hqe, if_neg hqk]
        rw [ih q, if_neg hqk]
    · rw [if_neg hek]
      by_cases hqe : q = e.1
      · have hqk : q ≠ k := fun h => hek (hqe ▸ h)
        simp only [alGet, if_pos hqe, if_neg hqk]
      · by_cases hqk : q = k
        · have hke : ¬ k = e.1 := fun h => hek h.symm
          simp only [alGet, if_neg hqe, if_pos hqk, if_neg hke]
          rw [ih q, if_pos hqk]
        · simp only [alGet, if_neg hqe, if_neg hqk]
          rw [ih q, if_neg hqk]

theorem alGet_map_all {β : Type} (f : β → β) :
    ∀ (l : List (String × β)) (q : String),
    alGet (l.map (fun e => (e.1, f e.2))) q = (alGet l q).map f := by
  intro l
  induction l with
  | nil => intro q; simp [alGet]
  | cons e rest ih =>
    intro q
    by_cases hqe : q = e.1 <;> simp [alGet, hqe, ih q]

theorem alGet_keys_eq_none {β : Type} :
    ∀ (l : List (String × β)) (q : String), (∀ e ∈ l, e.1 ≠ q) → alGet l q = none := by
  intro l q h
  exact (alGet_eq_none_iff l q).mpr h

/-- Dropping entries whose value-list is empty does not change reads at the
`getD []` level, provided keys are distinct. -/
theorem alGet_drop_nil {γ : Type} :
    ∀ (l : List (String × List γ)), (l.map (·.1)).Nodup → ∀ (q : String),
    (alGet (l.filter (fun e => ! e.2.isEmpty)) q).getD []
      = (alGet l q).getD [] := by
  intro l
  induction l with
  | nil => intro _ q; simp [alGet]
  | cons e rest ih =>
    intro hnd q
    have hrest : (rest.map (·.1)).Nodup := (List.nodup_cons.mp hnd).2
    have hhead : e.1 ∉ rest.map (·.1) := (List.nodup_cons.mp hnd).1
    by_cases he : e.2.isEmpty
    · have hemp : e.2 = [] := List.isEmpty_iff.mp he
      rw [List.filter_cons_of_neg (by simp [he])]
      by_cases hqe : q = e.1
      · have hnone : alGet rest e.1 = none := by
          apply alGet_keys_eq_none
          intro x hx he2
          exact hhead (he2 ▸ List.mem_map_of_mem _ hx)
        rw [ih hrest q, hqe, hnone]
        simp [alGet, hemp]
      · rw [ih hrest q]
        simp [alGet, hqe]
    · rw [List.filter_cons_of_pos (by simp [he])]
      by_cases hqe : q = e.1
      · simp [alGet, hqe]
      · simp only [alGet, if_neg hqe]
        exact ih hrest q

/-- Dropping only entries of one key whose value-list is empty likewise
preserves `getD []` reads. -/
theorem alGet_drop_nil_at {γ : Type} (k : String) :
    ∀ (l : List (String × List γ)), (l.map (·.1)).Nodup → ∀ (q : String),
    (alGet (l.filter (fun e => ! (decide (e.1 = k) && e.2.isEmpty))) q).getD []
      = (alGet l q).getD [] := by
  intro l
  induction l with
  | nil => intro _ q; simp [alGet]
  | cons e rest ih =>
    intro hnd q
    have hrest : (rest.map (·.1)).Nodup := (List.nodup_cons.mp hnd).2
    have hhead : e.1 ∉ rest.map (·.1) := (List.nodup_cons.mp hnd).1
    by_cases hdrop : e.1 = k ∧ e.2.isEmpty = true
    · have hemp : e.2 = [] := List.isEmpty_iff.mp hdrop.2
      rw [List.filter_cons_of_neg (by simp [hdrop.1, hdrop.2])]
      by_cases hqe : q = e.1
      · have hnone : alGet rest e.1 = none := by
          apply alGet_keys_eq_none
          intro x hx he2
          exact hhead (he2 ▸ List.mem_map_of_mem _ hx)
        rw [ih hrest q, hqe, hnone]
        simp [alGet, hemp]
      · rw [ih hrest q]
        simp [alGet, hqe]
    · rw [List.filter_cons_of_pos (by
        simp only [Bool.not_eq_true']
        rcases Decidable.not_and_iff_or_not.mp hdrop with h | h
        · simp [h]
        · simp [Bool.not_eq_true] at h
          simp [h])]
      by_cases hqe : q = e.1
      · simp [alGet, hqe]
      · simp only [alGet, if_neg hqe]
        exact ih hrest q

theorem alGet_append_some {β : Type} {l : List (String × β)} {q : String} {v : β}
    (h : alGet l q = some v) : ∀ (l₂ : List (String × β)), alGet (l ++ l₂) q = some v := by
  induction l with
  | nil => simp [alGet] at h
  | cons e rest ih =>
    intro l₂
    by_cases hqe : q = e.1
    · simp [alGet, hqe] at h ⊢
      exact h
    · simp only [alGet, if_neg hqe] at h
      simp only [List.cons_append, alGet, if_neg hqe]
      exact ih h l₂

theorem alGet_append_none {β : Type} {l : List (String × β)} {q : String}
    (h : alGet l q = none) : ∀ (l₂ : List (String × β)), alGet (l ++ l₂) q = alGet l₂ q := by
  induction l with
  | nil => intro l₂; simp
  | cons e rest ih =>
    intro l₂
    by_cases hqe : q = e.1
    · simp [alGet, hqe] at h
    · simp only [alGet, if_neg hqe] at h
      simp only [List.cons_append, alGet, if_neg hqe]
      exact ih h l₂

/-- Keys are preserved by the per-key value maps used in the registry. -/
theorem map_at_keys {β : Type} (k : String) (f : β → β) (l : List (String × β)) :
    (l.map (fun e => if e.1 = k then (e.1, f e.2) else e)).map (·.1) = l.map (·.1) := by
  rw [List.map_map]
  apply List.map_congr_left
  intro e _
  by_cases h : e.1 = k <;> simp [h]

theorem map_all_keys {β : Type} (f : β → β) (l : List (String × β)) :
    (l.map (fun e => (e.1, f e.2))).map (·.1) = l.map (·.1) := by
  rw [List.map_map]
  rfl

/-! ### Behaviour of the registry operations on the `_locks` dict -/

theorem get_locks_remove (reg : LockRegistry) (hk : (reg.locks.map (·.1)).Nodup)
    (path phase_id q : String) :
    get_locks (remove_phase_lock reg path phase_id) q
      = if q = path then
          (get_locks reg path).filter (fun l => ! decide (l.owner_phase = phase_id))
        else get_locks reg q := by
  unfold remove_phase_lock get_locks
  simp only
  by_cases hs : (alGet reg.locks path).isSome
  · rw [if_pos hs]
    rw [alGet_drop_nil_at path _
      (by rw [map_at_keys]; exact hk) q]
    rw [alGet_map_at path _ reg.locks q]
    by_cases hq : q = path
    · rw [if_pos hq, if_pos hq]
      cases halg : alGet reg.locks path with
      | none => simp
      | some v => simp
    · rw [if_neg hq, if_neg hq]
  · rw [if_neg hs]
    have hnone : alGet reg.locks path = none := by
      cases h : alGet reg.locks path with
      | none => rfl
      | some v => rw [h] at hs; simp at hs
    by_cases hq : q = path
    · rw [if_pos hq, hq, hnone]
      simp
    · rw [if_neg hq]

theorem get_locks_cleanup (reg : LockRegistry) (hk : (reg.locks.map (·.1)).Nodup)
    (now : Nat) (q : String) :
    get_locks (cleanup_expired_locks reg now) q
      = (get_locks reg q).filter (fun l => ! lock_is_expired l now) := by
  unfold cleanup_expired_locks get_locks
  simp only
  rw [alGet_drop_nil _ (by rw [map_all_keys]; exact hk) q]
  rw [alGet_map_all _ reg.locks q]
  cases halg : alGet reg.locks q with
  | none => simp
  | some v => simp

theorem get_locks_append_spec (l : List (String × List ResourceLock)) (k : String)
    (v : ResourceLock) (q : String) :
    (alGet (locks_append l k v) q).getD []
      = if q = k then ((alGet l k).getD []) ++ [v] else (alGet l q).getD [] := by
  unfold locks_append
  by_cases hs : (alGet l k).isSome
  · rw [if_pos hs]
    rw [alGet_map_at k (fun w => w ++ [v]) l q]
    by_cases hq : q = k
    · rw [if_pos hq, if_pos hq]
      obtain ⟨w, hw⟩ := Option.isSome_iff_exists.mp hs
      rw [hw]
      simp
    · rw [if_neg hq, if_neg hq]
  · rw [if_neg hs]
    have hnone : alGet l k = none := by
      cases h : alGet l k with
      | none => rfl
      | some w => rw [h] at hs; simp at hs
    by_cases hq : q = k
    · rw [if_pos hq, hq, alGet_append_none hnone, hnone]
      simp [alGet]
    · rw [if_neg hq]
      cases halg : alGet l q with
      | none => rw [alGet_append_none halg]; simp [alGet, hq]
      | some w => rw [alGet_append_some halg]

theorem get_locks_acquire_success (reg : LockRegistry)
    (hk : (reg.locks.map (·.1)).Nodup) (now : Nat) (lock : ResourceLock)
    (hcan : can_acquire reg now lock.resource_path lock.owner_phase lock.lock_type = true)
    (q : String) :
    get_locks (acquire_lock reg now lock).2 q
      = if q = lock.resource_path then
          ((get_locks reg lock.resource_path).filter
            (fun l => ! decide (l.owner_phase = lock.owner_phase))) ++ [lock]
        else get_locks reg q := by
  have hrem := get_locks_remove reg hk lock.resource_path lock.owner_phase
  unfold acquire_lock
  rw [if_neg (by simp [hcan])]
  show (alGet (locks_append (remove_phase_lock reg lock.resource_path
      lock.owner_phase).locks lock.resource_path lock) q).getD [] = _
  rw [get_locks_append_spec]
  have hgl : ∀ x, (alGet (remove_phase_lock reg lock.resource_path
      lock.owner_phase).locks x).getD []
      = get_locks (remove_phase_lock reg lock.resource_path lock.owner_phase) x :=
    fun x => rfl
  by_cases hq : q = lock.resource_path
  · rw [if_pos hq, if_pos hq, hgl, hrem lock.resource_path, if_pos rfl]
  · rw [if_neg hq, if_neg hq, hgl, hrem q, if_neg hq]

/-! ### C3: `can_acquire` -/

theorem one_lt_length_of_two_mem {α : Type} {l : List α} {a b : α}
    (ha : a ∈ l) (hb : b ∈ l) (hne : a ≠ b) : 1 < l.length := by
  match l with
  | [] => cases ha
  | [x] =>
    rw [List.mem_singleton] at ha hb
    exact absurd (ha.trans hb.symm) hne
  | x :: y :: rest => simp

/-- C3: behaviour of `can_acquire` over every registry state satisfying
the at-most-one-lock-per-phase-per-path invariant (stated as: the active
locks on the path have pairwise distinct owners, which is what C10's
invariant gives): a path with no active locks always grants; a phase
already holding a lock is granted except an exclusive request while
another phase also holds one; a fresh exclusive request is denied whenever
any active lock exists; a fresh shared request is granted exactly when all
active locks are shared. -/
theorem can_acquire_spec (reg : LockRegistry) (now : Nat)
    (path phase_id : String) (lock_type : LockType)
    (howners : ((get_active_locks reg now path).map (·.owner_phase)).Nodup) :
    (get_active_locks reg now path = [] →
      can_acquire reg now path phase_id lock_type = true) ∧
    ((∃ l ∈ get_active_locks reg now path, l.owner_phase = phase_id) →
      (can_acquire reg now path phase_id lock_type = true ↔
        ¬(lock_type = LockType.exclusive ∧
          ∃ l ∈ get_active_locks reg now path, l.owner_phase ≠ phase_id))) ∧
    ((∀ l ∈ get_active_locks reg now path, l.owner_phase ≠ phase_id) →
      lock_type = LockType.exclusive → get_active_locks reg now path ≠ [] →
      can_acquire reg now path phase_id lock_type = false) ∧
    ((∀ l ∈ get_active_locks reg now path, l.owner_phase ≠ phase_id) →
      lock_type = LockType.shared →
      (can_acquire reg now path phase_id lock_type = true ↔
        ∀ l ∈ get_active_locks reg now path, l.lock_type = LockType.shared)) := by
  set A := get_active_locks reg now path with hA
  refine ⟨?_, ?_, ?_, ?_⟩
  · intro hemp
    unfold can_acquire
    rw [← hA, hemp]
    simp
  · rintro ⟨l0, hl0, hl0o⟩
    have hne : ¬ A.isEmpty := by
      cases he : A with
      | nil => rw [he] at hl0; cases hl0
      | cons x xs => simp [he]
    have hfilt : ¬ (A.filter (fun l => decide (l.owner_phase = phase_id))).isEmpty := by
      have : l0 ∈ A.filter (fun l => decide (l.owner_phase = phase_id)) :=
        List.mem_filter.mpr ⟨hl0, by simpa using hl0o⟩
      cases he : A.filter (fun l => decide (l.owner_phase = phase_id)) with
      | nil => rw [he] at this; cases this
      | cons x xs => simp
    unfold can_acquire
    rw [← hA]
    rw [if_neg (by simpa using hne), if_pos (by simpa using hfilt)]
    have hlen : A.length > 1 ↔ ∃ l ∈ A, l.owner_phase ≠ phase_id := by
      constructor
      · intro hgt
        by_contra hall
        push_neg at hall
        match he : A, howners with
        | [], _ => rw [he] at hgt; simp at hgt
        | [x], _ => rw [he] at hgt; simp at hgt
        | x :: y :: rest, hnd =>
          rw [he] at hall
          have hx : x.owner_phase = phase_id := hall x (by simp)
          have hy : y.owner_phase = phase_id := hall y (by simp)
          rw [he] at howners
          simp only [List.map_cons, List.nodup_cons] at howners
          exact howners.1 (by rw [hx, ← hy]; simp)
      · rintro ⟨l1, hl1, hl1o⟩
        have hne01 : l0 ≠ l1 := fun h => hl1o (h ▸ hl0o)
        exact one_lt_length_of_two_mem hl0 hl1 hne01
    by_cases hcond : lock_type = LockType.exclusive ∧ A.length > 1
    · rw [if_pos hcond]
      exact ⟨fun h => absurd h (by simp),
        fun hcontra => absurd ⟨hcond.1, hlen.mp hcond.2⟩ hcontra⟩
    · rw [if_neg hcond]
      exact ⟨fun _ hcontra => hcond ⟨hcontra.1, hlen.mpr hcontra.2⟩, fun _ => rfl⟩
  · intro hnone hexcl hne
    have hfilt : (A.filter (fun l => decide (l.owner_phase = phase_id))).isEmpty := by
      rw [List.isEmpty_iff, List.filter_eq_nil]
      intro l hl
      simpa using hnone l hl
    unfold can_acquire
    rw [← hA]
    rw [if_neg (by
      cases he : A with
      | nil => exact absurd he hne
      | cons x xs => simp [he])]
    rw [if_neg (by simpa using hfilt), if_pos hexcl]
  · intro hnone hshared
    by_cases hemp : A = []
    · unfold can_acquire
      rw [← hA, hemp]
      simp
    · have hfilt : (A.filter (fun l => decide (l.owner_phase = phase_id))).isEmpty := by
        rw [List.isEmpty_iff, List.filter_eq_nil]
        intro l hl
        simpa using hnone l hl
      unfold can_acquire
      rw [← hA]
      rw [if_neg (by
        cases he : A with
        | nil => exact absurd he hemp
        | cons x xs => simp [he])]
      rw [if_neg (by simpa using hfilt)]
      rw [if_neg (by simp [hshared])]
      rw [List.all_eq_true]
      constructor
      · intro h l hl
        simpa using h l hl
      · intro h l hl
        simpa using h l hl

/-! ### C4: the shared-xor-single-exclusive invariant -/

theorem ExclusiveAlone_mono {reg reg' : LockRegistry} {now : Nat}
    (h : ∀ q, List.Sublist (get_locks reg' q) (get_locks reg q))
    (hinv : ExclusiveAlone reg now) : ExclusiveAlone reg' now := by
  intro path l hl hex
  have hsub : List.Sublist (get_active_locks reg' now path)
      (get_active_locks reg now path) := (h path).filter _
  have hlA : l ∈ get_active_locks reg now path := hsub.subset hl
  have := hinv path l hlA hex
  have hsubl : List.Sublist (get_active_locks reg' now path) [l] := this ▸ hsub
  rcases List.sublist_singleton.mp hsubl with he | he
  · rw [he] at hl; cases hl
  · exact he

theorem NodupKeys_remove (reg : LockRegistry) (path phase_id : String)
    (hk : NodupKeys reg) : NodupKeys (remove_phase_lock reg path phase_id) := by
  unfold remove_phase_lock
  constructor
  · simp only
    by_cases hs : (alGet reg.locks path).isSome
    · rw [if_pos hs]
      have hsub : List.Sublist
          (((reg.locks.map (fun e =>
            if e.1 = path then
              (e.1, e.2.filter (fun l => ! decide (l.owner_phase = phase_id)))
            else e)).filter
              (fun e => ! (decide (e.1 = path) && e.2.isEmpty))).map (·.1))
          ((reg.locks.map (fun e =>
            if e.1 = path then
              (e.1, e.2.filter (fun l => ! decide (l.owner_phase = phase_id)))
            else e)).map (·.1)) := (List.filter_sublist _).map _
      rw [map_at_keys] at hsub
      exact hk.1.sublist hsub
    · rw [if_neg hs]; exact hk.1
  · simp only
    by_cases hs : (alGet reg.phase_locks phase_id).isSome
    · rw [if_pos hs]
      have hsub : List.Sublist
          (((reg.phase_locks.map (fun e =>
            if e.1 = phase_id then
              (e.1, e.2.filter (fun q => ! decide (q = path)))
            else e)).filter
              (fun e => ! (decide (e.1 = phase_id) && e.2.isEmpty))).map (·.1))
          ((reg.phase_locks.map (fun e =>
            if e.1 = phase_id then
              (e.1, e.2.filter (fun q => ! decide (q = path)))
            else e)).map (·.1)) := (List.filter_sublist _).map _
      rw [map_at_keys] at hsub
      exact hk.2.sublist hsub
    · rw [if_neg hs]; exact hk.2

theorem get_locks_remove_sublist (reg : LockRegistry)
    (hk : (reg.locks.map (·.1)).Nodup) (path phase_id q : String) :
    List.Sublist (get_locks (remove_phase_lock reg path phase_id) q)
      (get_locks reg q) := by
  rw [get_locks_remove reg hk path phase_id q]
  by_cases hq : q = path
  · rw [if_pos hq, hq]
    exact List.filter_sublist _
  · rw [if_neg hq]

/-- Trichotomy of a granted `can_acquire`: no active locks, or the
requester already holds one (and is not upgrading to exclusive alongside
more than one active lock), or the request is a fresh shared one on an
all-shared path. -/
theorem can_acquire_true_cases (reg : LockRegistry) (now : Nat)
    (path phase_id : String) (kind : LockType)
    (h : can_acquire reg now path phase_id kind = true) :
    get_active_locks reg now path = [] ∨
    ((∃ l ∈ get_active_locks reg now path, l.owner_phase = phase_id) ∧
      ¬(kind = LockType.exclusive ∧ (get_active_locks reg now path).length > 1)) ∨
    ((∀ l ∈ get_active_locks reg now path, l.owner_phase ≠ phase_id) ∧
      kind ≠ LockType.exclusive ∧
      ∀ l ∈ get_active_locks reg now path, l.lock_type = LockType.shared) := by
  unfold can_acquire at h
  by_cases hA : (get_active_locks reg now path).isEmpty
  · exact Or.inl (List.isEmpty_iff.mp hA)
  · rw [if_neg (by simpa using hA)] at h
    by_cases hf : ((get_active_locks reg now path).filter
        (fun l => decide (l.owner_phase = phase_id))).isEmpty
    · rw [if_neg (by simp [hf])] at h
      by_cases hk2 : kind = LockType.exclusive
      · rw [if_pos hk2] at h; simp at h
      · rw [if_neg hk2] at h
        refine Or.inr (Or.inr ⟨?_, hk2, ?_⟩)
        · intro l hl he
          have : l ∈ (get_active_locks reg now path).filter
              (fun l => decide (l.owner_phase = phase_id)) :=
            List.mem_filter.mpr ⟨hl, by simpa using he⟩
          rw [List.isEmpty_iff.mp hf] at this
          cases this
        · intro l hl
          have := List.all_eq_true.mp h l hl
          simpa using this
    · rw [if_pos (by simpa using hf)] at h
      have hf2 : ((get_active_locks reg now path).filter
          (fun l => decide (l.owner_phase = phase_id))) ≠ [] := by
        intro he
        exact hf (by rw [he]; rfl)
      obtain ⟨l0, hl0⟩ := List.exists_mem_of_ne_nil _ hf2
      refine Or.inr (Or.inl ⟨⟨l0, List.mem_of_mem_filter hl0, by
        have := List.of_mem_filter hl0
        simpa using this⟩, ?_⟩)
      intro hcond
      rw [if_pos hcond] at h
      simp at h

/-- C4: the per-path invariant "all active locks shared, or exactly one
active lock which is exclusive" (equivalently: an active exclusive lock is
alone) is preserved by `acquire_lock`, `release_lock`,
`release_all_phase_locks`, and `cleanup_expired_locks`. -/
theorem lock_registry_exclusive_invariant (reg : LockRegistry) (now : Nat)
    (hk : NodupKeys reg) (hinv : ExclusiveAlone reg now) :
    (∀ lock, ExclusiveAlone (acquire_lock reg now lock).2 now) ∧
    (∀ path phase_id, ExclusiveAlone (release_lock reg path phase_id) now) ∧
    (∀ phase_id, ExclusiveAlone (release_all_phase_locks reg phase_id) now) ∧
    ExclusiveAlone (cleanup_expired_locks reg now) now := by
  refine ⟨?_, ?_, ?_, ?_⟩
  · intro lock
    by_cases hcan : can_acquire reg now lock.resource_path lock.owner_phase
        lock.lock_type = true
    · intro path l hl hex
      have hgl := get_locks_acquire_success reg hk.1 now lock hcan
      by_cases hq : path = lock.resource_path
      · have htri := can_acquire_true_cases reg now lock.resource_path
          lock.owner_phase lock.lock_type hcan
        rw [← hq] at htri
        have hactive : get_active_locks (acquire_lock reg now lock).2 now path
            = (get_active_locks reg now path).filter
                (fun l => ! decide (l.owner_phase = lock.owner_phase))
              ++ (if lock_is_expired lock now then [] else [lock]) := by
          unfold get_active_locks
          rw [hgl path, if_pos hq, hq, List.filter_append]
          congr 1
          · rw [List.filter_comm]
          · by_cases hexp : lock_is_expired lock now <;> simp [hexp]
        rw [hactive] at hl
        have hown_vac : ∀ l2 ∈ (get_active_locks reg now path).filter
            (fun l3 => ! decide (l3.owner_phase = lock.owner_phase)),
            l2.lock_type = LockType.exclusive → False := by
          intro l2 hl2 hex2
          have hl2A : l2 ∈ get_active_locks reg now path :=
            List.mem_of_mem_filter hl2
          have hl2o : l2.owner_phase ≠ lock.owner_phase := by
            have := List.of_mem_filter hl2
            simpa using this
          have hsingle := hinv path l2 hl2A hex2
          rcases htri with hA | ⟨⟨lo, hlo, hloo⟩, _⟩ | ⟨_, _, hallsh⟩
          · rw [hA] at hl2A; cases hl2A
          · rw [hsingle, List.mem_singleton] at hlo
            exact hl2o (hlo ▸ hloo)
          · have := hallsh l2 hl2A
            rw [hex2] at this
            cases this
        rcases List.mem_append.mp hl with hmem | hmem
        · exact absurd hex (fun hx => hown_vac l hmem hx)
        · have hexp : ¬ lock_is_expired lock now = true := by
            by_cases h : lock_is_expired lock now
            · rw [if_pos h] at hmem; cases hmem
            · exact h
          rw [if_neg hexp] at hmem hactive
          rw [List.mem_singleton] at hmem
          have hfe : (get_active_locks reg now path).filter
              (fun l2 => ! decide (l2.owner_phase = lock.owner_phase)) = [] := by
            rcases htri with hA | ⟨⟨lo, hlo, hloo⟩, hnc⟩ | ⟨_, hkind, _⟩
            · rw [hA]; rfl
            · have hexcl : lock.lock_type = LockType.exclusive := by
                rw [← hmem]; exact hex
              have hlen1 : (get_active_locks reg now path).length ≤ 1 := by
                by_contra hgt
                exact hnc ⟨hexcl, by omega⟩
              have hAeq : get_active_locks reg now path = [lo] := by
                cases hA : get_active_locks reg now path with
                | nil => rw [hA] at hlo; cases hlo
                | cons x xs =>
                  rw [hA] at hlo hlen1
                  cases xs with
                  | nil =>
                    have hlox : lo = x := List.mem_singleton.mp hlo
                    rw [hlox]
                  | cons y ys =>
                    simp at hlen1
              rw [hAeq]
              simp [hloo]
            · exact absurd (hmem ▸ hex : lock.lock_type = LockType.exclusive) hkind
          rw [hactive, hfe, hmem]
          rfl
      · have hactive : get_active_locks (acquire_lock reg now lock).2 now path
            = get_active_locks reg now path := by
          unfold get_active_locks
          rw [hgl path, if_neg hq]
        rw [hactive] at hl ⊢
        exact hinv path l hl hex
    · have : acquire_lock reg now lock = (false, reg) := by
        unfold acquire_lock
        rw [if_pos (by simpa using hcan)]
      rw [this]
      exact hinv
  · intro path phase_id
    exact ExclusiveAlone_mono
      (fun q => get_locks_remove_sublist reg hk.1 path phase_id q) hinv
  · intro phase_id
    have haux : ∀ (paths : List String) (r : LockRegistry), NodupKeys r →
        ExclusiveAlone r now →
        ExclusiveAlone (paths.foldl
          (fun r2 path => remove_phase_lock r2 path phase_id) r) now := by
      intro paths
      induction paths with
      | nil => intro r _ hr; exact hr
      | cons p rest ih =>
        intro r hkr hr
        rw [List.foldl_cons]
        exact ih (remove_phase_lock r p phase_id)
          (NodupKeys_remove r p phase_id hkr)
          (ExclusiveAlone_mono
            (fun q => get_locks_remove_sublist r hkr.1 p phase_id q) hr)
    exact haux _ reg hk hinv
  · exact ExclusiveAlone_mono
      (fun q => by
        rw [get_locks_cleanup reg hk.1 now q]
        exact List.filter_sublist _) hinv

/-! ### C10: at most one lock per phase per path -/

/-- C10: a successful `acquire_lock` removes the requesting phase's
previous lock on the path before recording the new one, so the phase's
locks on the path after a successful acquire are exactly the new lock, and
the at-most-one-lock-per-phase-per-path invariant is preserved (also on
failure, where the registry is unchanged). -/
theorem acquire_lock_replaces (reg : LockRegistry) (now : Nat)
    (lock : ResourceLock) (hk : NodupKeys reg)
    (hone : PhaseHoldsAtMostOne reg) :
    PhaseHoldsAtMostOne (acquire_lock reg now lock).2 ∧
    ((acquire_lock reg now lock).1 = true →
      (get_locks (acquire_lock reg now lock).2 lock.resource_path).filter
        (fun l => decide (l.owner_phase = lock.owner_phase)) = [lock]) := by
  by_cases hcan : can_acquire reg now lock.resource_path lock.owner_phase
      lock.lock_type = true
  · have hgl := get_locks_acquire_success reg hk.1 now lock hcan
    have hrepl : (get_locks (acquire_lock reg now lock).2 lock.resource_path).filter
        (fun l => decide (l.owner_phase = lock.owner_phase)) = [lock] := by
      rw [hgl lock.resource_path, if_pos rfl, List.filter_append]
      have h1 : ((get_locks reg lock.resource_path).filter
          (fun l => ! decide (l.owner_phase = lock.owner_phase))).filter
          (fun l => decide (l.owner_phase = lock.owner_phase)) = [] := by
        rw [List.filter_eq_nil_iff]
        intro l hl
        have := List.of_mem_filter hl
        simpa using this
      rw [h1]
      simp
    refine ⟨?_, fun _ => hrepl⟩
    intro path phase_id
    by_cases hq : path = lock.resource_path
    · subst hq
      by_cases hp : phase_id = lock.owner_phase
      · subst hp
        rw [hrepl]
        simp
      · rw [hgl lock.resource_path, if_pos rfl, List.filter_append]
        have h2 : ([lock].filter (fun l => decide (l.owner_phase = phase_id))) = [] := by
          simp only [List.filter_cons, List.filter_nil]
          rw [if_neg (by simpa using fun h => hp h.symm)]
        rw [h2, List.append_nil]
        have hsub : List.Sublist
            (((get_locks reg lock.resource_path).filter
              (fun l => ! decide (l.owner_phase = lock.owner_phase))).filter
                (fun l => decide (l.owner_phase = phase_id)))
            ((get_locks reg lock.resource_path).filter
              (fun l => decide (l.owner_phase = phase_id))) :=
          (List.filter_sublist _).filter _
        exact le_trans hsub.length_le (hone lock.resource_path phase_id)
    · rw [hgl path, if_neg hq]
      exact hone path phase_id
  · have hres : acquire_lock reg now lock = (false, reg) := by
      unfold acquire_lock
      rw [if_pos (by simpa using hcan)]
    rw [hres]
    exact ⟨hone, by intro h; cases h⟩

/-! ### Witnesses for the lock-registry claims -/

/-- Witness for C3 at a registry where `p1` holds a shared lock on `r` and
`p2` makes requests. -/
theorem can_acquire_spec_witness :
    ((get_active_locks regW 0 "r").map (·.owner_phase)).Nodup ∧
    ((get_active_locks regW 0 "r" = [] →
      can_acquire regW 0 "r" "p2" LockType.shared = true) ∧
    ((∃ l ∈ get_active_locks regW 0 "r", l.owner_phase = "p2") →
      (can_acquire regW 0 "r" "p2" LockType.shared = true ↔
        ¬(LockType.shared = LockType.exclusive ∧
          ∃ l ∈ get_active_locks regW 0 "r", l.owner_phase ≠ "p2"))) ∧
    ((∀ l ∈ get_active_locks regW 0 "r", l.owner_phase ≠ "p2") →
      LockType.shared = LockType.exclusive → get_active_locks regW 0 "r" ≠ [] →
      can_acquire regW 0 "r" "p2" LockType.shared = false) ∧
    ((∀ l ∈ get_active_locks regW 0 "r", l.owner_phase ≠ "p2") →
      LockType.shared = LockType.shared →
      (can_acquire regW 0 "r" "p2" LockType.shared = true ↔
        ∀ l ∈ get_active_locks regW 0 "r", l.lock_type = LockType.shared))) :=
  ⟨by decide, can_acquire_spec regW 0 "r" "p2" LockType.shared (by decide)⟩

/-- Witness for C4 at the registry `regW` (hypotheses discharged
explicitly: key distinctness by `decide`, the invariant by case analysis
on the single locked path). -/
theorem lock_registry_exclusive_invariant_witness :
    NodupKeys regW ∧ ExclusiveAlone regW 0 ∧
    ((∀ lock, ExclusiveAlone (acquire_lock regW 0 lock).2 0) ∧
     (∀ path phase_id, ExclusiveAlone (release_lock regW path phase_id) 0) ∧
     (∀ phase_id, ExclusiveAlone (release_all_phase_locks regW phase_id) 0) ∧
     ExclusiveAlone (cleanup_expired_locks regW 0) 0) := by
  have hk : NodupKeys regW := ⟨by decide, by decide⟩
  have hinv : ExclusiveAlone regW 0 := by
    intro path l hl hex
    by_cases hp : path = "r"
    · subst hp
      have hls : l = lockS := by
        simpa [get_active_locks, get_locks, alGet, regW, lockS,
          lock_is_expired] using hl
      rw [hls] at hex
      exact absurd hex (by decide)
    · exfalso
      simp [get_active_locks, get_locks, alGet, regW, hp] at hl
  exact ⟨hk, hinv, lock_registry_exclusive_invariant regW 0 hk hinv⟩

/-- Witness for C10: `p1` upgrades its shared lock on `r` to exclusive;
the exclusive lock replaces the shared one. -/
theorem acquire_lock_replaces_witness :
    NodupKeys regW ∧ PhaseHoldsAtMostOne regW ∧
    (PhaseHoldsAtMostOne (acquire_lock regW 0 lockX).2 ∧
     ((acquire_lock regW 0 lockX).1 = true →
       (get_locks (acquire_lock regW 0 lockX).2 lockX.resource_path).filter
         (fun l => decide (l.owner_phase = lockX.owner_phase)) = [lockX])) := by
  have hk : NodupKeys regW := ⟨by decide, by decide⟩
  have hone : PhaseHoldsAtMostOne regW := by
    intro path phase_id
    by_cases hp : path = "r"
    · subst hp
      have : get_locks regW "r" = [lockS] := by rfl
      rw [this]
      exact le_trans (List.length_filter_le _ _) (by decide)
    · have : get_locks regW path = [] := by
        simp [get_locks, alGet, regW, hp]
      rw [this]
      simp
  exact ⟨hk, hone, acquire_lock_replaces regW 0 lockX hk hone⟩

/-! ### C5: crash recovery reclassifies in-progress phases -/

/-- C5: When the live state loads, `recover_from_crash` returns a state
with the same phase keys in which every formerly `in_progress` phase is
`failed` with error "Interrupted by crash" and its end time set, no phase
is `in_progress`, and completed phases are untouched. -/
theorem recover_from_crash_marks_interrupted (st : ExecutionState)
    (backups : List (Option ExecutionState)) (now : Nat) :
    ∃ st2, recover_from_crash (some st) backups now = some st2 ∧
      st2.phase_states.map Prod.fst = st.phase_states.map Prod.fst ∧
      (∀ e ∈ st2.phase_states, e.2.status ≠ PhaseStatus.in_progress) ∧
      List.Forall₂ (fun (e e2 : String × PhaseExecutionDetails) =>
        (e.2.status = PhaseStatus.in_progress →
          e2.2.status = PhaseStatus.failed ∧
          e2.2.error_message = some "Interrupted by crash" ∧
          e2.2.end_time = some now) ∧
        (e.2.status = PhaseStatus.completed → e2 = e))
        st.phase_states st2.phase_states := by
  refine ⟨_, rfl, ?_, ?_, ?_⟩
  · simp only [List.map_map]
    rfl
  · intro e he
    obtain ⟨e0, _, rfl⟩ := List.mem_map.mp he
    show (mark_interrupted now e0.2).status ≠ PhaseStatus.in_progress
    unfold mark_interrupted
    by_cases h : e0.2.status = PhaseStatus.in_progress
    · rw [if_pos h]
      intro hc
      cases hc
    · rw [if_neg h]
      exact h
  · apply forall₂_map_self
    intro e _
    constructor
    · intro hip
      show (mark_interrupted now e.2).status = PhaseStatus.failed ∧ _
      unfold mark_interrupted
      rw [if_pos hip]
      exact ⟨rfl, rfl, rfl⟩
    · intro hc
      show (e.1, mark_interrupted now e.2) = e
      unfold mark_interrupted
      rw [if_neg (by rw [hc]; intro h; cases h)]

/-! ### C7: backup fallback (the code tries only the 3 most recent) -/

/-- Counterexample for C7 as stated: with four backups, the three most
recent unreadable and the fourth loadable, `recover_from_crash` reports no
recoverable state even though a backup loads — so it does not try "each
one until all backups are exhausted". -/
theorem recover_from_crash_backup_counterexample :
    recover_from_crash none [none, none, none, some stW] 0 = none ∧
    ¬ (∀ b ∈ [(none : Option ExecutionState), none, none, some stW], b = none) := by
  constructor
  · rfl
  · intro h
    have := h (some stW) (by simp)
    cases this

/-- C7 (amended): when the live state is unreadable, `recover_from_crash`
tries the backups most-recent-first, but only the three most recent: it
returns the first of those that loads, and reports no recoverable state
exactly when all of the (at most 3) attempted backups fail to load. -/
theorem recover_from_crash_backup_fallback
    (backups : List (Option ExecutionState)) (now : Nat) :
    (recover_from_crash none backups now = none ↔
      ∀ b ∈ backups.take 3, b = none) ∧
    (∀ st, recover_from_crash none backups now = some st →
      ∃ i, ∃ hi : i < (backups.take 3).length,
        (backups.take 3).get ⟨i, hi⟩ = some st ∧
        ∀ j (hj : j < i), (backups.take 3).get ⟨j, Nat.lt_trans hj hi⟩ = none) := by
  have haux : ∀ (bl : List (Option ExecutionState)),
      (try_backups bl = none ↔ ∀ b ∈ bl, b = none) ∧
      (∀ st, try_backups bl = some st →
        ∃ i, ∃ hi : i < bl.length,
          bl.get ⟨i, hi⟩ = some st ∧
          ∀ j (hj : j < i), bl.get ⟨j, Nat.lt_trans hj hi⟩ = none) := by
    intro bl
    induction bl with
    | nil => exact ⟨by simp [try_backups], by intro st h; cases h⟩
    | cons b rest ih =>
      cases b with
      | some st0 =>
        constructor
        · simp [try_backups]
        · intro st h
          simp only [try_backups] at h
          refine ⟨0, by simp, h, ?_⟩
          intro j hj
          omega
      | none =>
        constructor
        · simp only [try_backups]
          rw [ih.1]
          constructor
          · intro h b hb
            rcases List.mem_cons.mp hb with rfl | hb'
            · rfl
            · exact h b hb'
          · intro h b hb
            exact h b (List.mem_cons_of_mem _ hb)
        · intro st h
          simp only [try_backups] at h
          obtain ⟨i, hi, hget, hbefore⟩ := ih.2 st h
          refine ⟨i + 1, by simpa using hi, by simpa using hget, ?_⟩
          intro j hj
          match j with
          | 0 => rfl
          | j + 1 =>
            have := hbefore j (by omega)
            simpa using this
  exact haux (backups.take 3)

/-! ### C6: serialize/deserialize round trip -/

theorem phaseStatus_ofValue_value (s : PhaseStatus) :
    PhaseStatus.ofValue s.value = some s := by
  cases s <;> rfl

theorem agentStatus_ofValue_value (s : AgentStatus) :
    AgentStatus.ofValue s.value = some s := by
  cases s <;> rfl

theorem deserialize_phase_states_serialize
    (l : List (String × PhaseExecutionDetails)) :
    deserialize_phase_states (l.map (fun e =>
      (e.1,
        ({ phase_id := e.2.phase_id
           status := e.2.status.value
           agent_id := e.2.agent_id
           start_time := e.2.start_time
           end_time := e.2.end_time
           error_message := e.2.error_message
           retry_count := e.2.retry_count
           output_files := e.2.output_files
           metrics := e.2.metrics } : SerializedPhase))))
      = some (l.map (fun e => (e.1, { e.2 with phase_id := e.1 }))) := by
  induction l with
  | nil => rfl
  | cons e rest ih =>
    simp only [List.map_cons, deserialize_phase_states, deserialize_phase,
      phaseStatus_ofValue_value, ih]

theorem deserialize_agents_serialize (l : List (String × AgentInfo)) :
    deserialize_agents (l.map (fun e =>
      (e.1,
        ({ agent_id := e.2.agent_id
           assigned_phase := e.2.assigned_phase
           status := e.2.status.value
           created_at := e.2.created_at
           terminated_at := e.2.terminated_at
           logs := e.2.logs } : SerializedAgent))))
      = some (l.map (fun e => (e.1, { e.2 with agent_id := e.1 }))) := by
  induction l with
  | nil => rfl
  | cons e rest ih =>
    simp only [List.map_cons, deserialize_agents, deserialize_agent,
      agentStatus_ofValue_value, ih]

/-- C6: `Save(state)` then `Load()` yields a state whose phase records
(status, agent id, start/end times, error message, retry count, output
files), wave records (all fields), and agent records (assigned phase,
status, timestamps, logs) are identical to the saved state's, with the
dict keys preserved in order; and the round trip is idempotent, so
repeatedly saving the same unmutated state and loading yields the very
same result. -/
theorem save_load_round_trip (st : ExecutionState) :
    ∃ st2, deserialize_state (serialize_state st) = some st2 ∧
      st2.phase_states.map Prod.fst = st.phase_states.map Prod.fst ∧
      List.Forall₂ (fun (e e2 : String × PhaseExecutionDetails) =>
        e2.2.status = e.2.status ∧ e2.2.agent_id = e.2.agent_id ∧
        e2.2.start_time = e.2.start_time ∧ e2.2.end_time = e.2.end_time ∧
        e2.2.error_message = e.2.error_message ∧
        e2.2.retry_count = e.2.retry_count ∧
        e2.2.output_files = e.2.output_files)
        st.phase_states st2.phase_states ∧
      st2.waves = st.waves ∧
      st2.agents.map Prod.fst = st.agents.map Prod.fst ∧
      List.Forall₂ (fun (e e2 : String × AgentInfo) =>
        e2.2.assigned_phase = e.2.assigned_phase ∧ e2.2.status = e.2.status ∧
        e2.2.created_at = e.2.created_at ∧
        e2.2.terminated_at = e.2.terminated_at ∧ e2.2.logs = e.2.logs)
        st.agents st2.agents ∧
      st2.start_time = st.start_time ∧ st2.end_time = st.end_time ∧
      st2.config = st.config ∧
      deserialize_state (serialize_state st2) = some st2 := by
  have hwaves : ∀ (ws : List ExecutionWave),
      (ws.map (fun w =>
        ({ wave_number := w.wave_number, phases := w.phases,
           start_time := w.start_time, end_time := w.end_time,
           status := w.status } : SerializedWave))).map deserialize_wave = ws := by
    intro ws
    induction ws with
    | nil => rfl
    | cons w rest ih =>
      rw [List.map_cons, List.map_cons, ih]
      rfl
  have hdes : deserialize_state (serialize_state st)
      = some
        { phase_states := st.phase_states.map (fun e => (e.1, { e.2 with phase_id := e.1 }))
          waves := st.waves
          agents := st.agents.map (fun e => (e.1, { e.2 with agent_id := e.1 }))
          start_time := st.start_time
          end_time := st.end_time
          config := st.config } := by
    simp only [serialize_state, deserialize_state,
      deserialize_phase_states_serialize, deserialize_agents_serialize]
    rw [hwaves st.waves]
  refine ⟨_, hdes, ?_, ?_, rfl, ?_, ?_, rfl, rfl, rfl, ?_⟩
  · simp only [List.map_map]
    rfl
  · apply forall₂_map_self
    intro e _
    exact ⟨rfl, rfl, rfl, rfl, rfl, rfl, rfl⟩
  · simp only [List.map_map]
    rfl
  · apply forall₂_map_self
    intro e _
    exact ⟨rfl, rfl, rfl, rfl, rfl⟩
  · have hdes2 : deserialize_state (serialize_state
        { phase_states := st.phase_states.map (fun e => (e.1, { e.2 with phase_id := e.1 }))
          waves := st.waves
          agents := st.agents.map (fun e => (e.1, { e.2 with agent_id := e.1 }))
          start_time := st.start_time
          end_time := st.end_time
          config := st.config : ExecutionState })
        = some
          { phase_states := (st.phase_states.map
              (fun e => (e.1, { e.2 with phase_id := e.1 }))).map
                (fun e => (e.1, { e.2 with phase_id := e.1 }))
            waves := st.waves
            agents := (st.agents.map
              (fun e => (e.1, { e.2 with agent_id := e.1 }))).map
                (fun e => (e.1, { e.2 with agent_id := e.1 }))
            start_time := st.start_time
            end_time := st.end_time
            config := st.config } := by
      simp only [serialize_state, deserialize_state,
        deserialize_phase_states_serialize, deserialize_agents_serialize]
      rw [hwaves st.waves]
    rw [hdes2]
    simp only [List.map_map]
    rfl

/-! ### C9: the failure policy -/

/-- C9: `_handle_phase_failure` returns `retry` exactly when the phase's
recorded retry count is below the configured limit and the strategy is
`"retry"`; otherwise it dispatches the configured terminal strategy
(`skip`, `abort_wave`, `abort_all`). -/
theorem handle_phase_failure_spec
    (phase_states : List (String × PhaseExecutionDetails))
    (retry_limit : Nat) (failure_strategy phase_id : String)
    (d : PhaseExecutionDetails)
    (h : alGet phase_states phase_id = some d) :
    (handle_phase_failure phase_states retry_limit failure_strategy phase_id
        = RecoveryAction.retry ↔
      (d.retry_count < retry_limit ∧ failure_strategy = "retry")) ∧
    (¬(d.retry_count < retry_limit ∧ failure_strategy = "retry") →
      (failure_strategy = "skip" →
        handle_phase_failure phase_states retry_limit failure_strategy phase_id
          = RecoveryAction.skip) ∧
      (failure_strategy = "abort_wave" →
        handle_phase_failure phase_states retry_limit failure_strategy phase_id
          = RecoveryAction.abort_wave) ∧
      (failure_strategy = "abort_all" →
        handle_phase_failure phase_states retry_limit failure_strategy phase_id
          = RecoveryAction.abort_all)) := by
  have hterm : ∀ s, terminal_action s ≠ RecoveryAction.retry := by
    intro s
    unfold terminal_action
    by_cases h1 : s = "skip"
    · rw [if_pos h1]; intro hc; cases hc
    · rw [if_neg h1]
      by_cases h2 : s = "abort_wave"
      · rw [if_pos h2]; intro hc; cases hc
      · rw [if_neg h2]
        by_cases h3 : s = "abort_all"
        · rw [if_pos h3]; intro hc; cases hc
        · rw [if_neg h3]; intro hc; cases hc
  have hbody : handle_phase_failure phase_states retry_limit failure_strategy phase_id
      = if d.retry_count < retry_limit then
          if failure_strategy = "retry" then RecoveryAction.retry
          else terminal_action failure_strategy
        else terminal_action failure_strategy := by
    unfold handle_phase_failure
    rw [h]
  constructor
  · rw [hbody]
    constructor
    · intro hr
      by_cases h1 : d.retry_count < retry_limit
      · rw [if_pos h1] at hr
        by_cases h2 : failure_strategy = "retry"
        · exact ⟨h1, h2⟩
        · rw [if_neg h2] at hr
          exact absurd hr (hterm _)
      · rw [if_neg h1] at hr
        exact absurd hr (hterm _)
    · rintro ⟨h1, h2⟩
      rw [if_pos h1, if_pos h2]
  · intro hnot
    have hdisp : handle_phase_failure phase_states retry_limit failure_strategy phase_id
        = terminal_action failure_strategy := by
      rw [hbody]
      by_cases h1 : d.retry_count < retry_limit
      · rw [if_pos h1]
        rw [if_neg (fun h2 => hnot ⟨h1, h2⟩)]
      · rw [if_neg h1]
    refine ⟨?_, ?_, ?_⟩
    · intro hs
      rw [hdisp, hs]
      rfl
    · intro hs
      rw [hdisp, hs]
      rfl
    · intro hs
      rw [hdisp, hs]
      rfl

/-- Witness for C9 at a concrete phase table. -/
theorem handle_phase_failure_spec_witness :
    alGet [("ph1", dW)] "ph1" = some dW ∧
    ((handle_phase_failure [("ph1", dW)] 2 "retry" "ph1" = RecoveryAction.retry ↔
      (dW.retry_count < 2 ∧ "retry" = "retry")) ∧
    (¬(dW.retry_count < 2 ∧ "retry" = "retry") →
      ("retry" = "skip" →
        handle_phase_failure [("ph1", dW)] 2 "retry" "ph1" = RecoveryAction.skip) ∧
      ("retry" = "abort_wave" →
        handle_phase_failure [("ph1", dW)] 2 "retry" "ph1" = RecoveryAction.abort_wave) ∧
      ("retry" = "abort_all" →
        handle_phase_failure [("ph1", dW)] 2 "retry" "ph1" = RecoveryAction.abort_all))) :=
  ⟨rfl, handle_phase_failure_spec [("ph1", dW)] 2 "retry" "ph1" dW rfl⟩

/-- Witness for the amended C7 at a concrete backup list (second backup
loads). -/
theorem recover_from_crash_backup_fallback_witness :
    (recover_from_crash none [none, some stW] 0 = none ↔
      ∀ b ∈ [(none : Option ExecutionState), some stW].take 3, b = none) ∧
    (∀ st, recover_from_crash none [none, some stW] 0 = some st →
      ∃ i, ∃ hi : i < ([(none : Option ExecutionState), some stW].take 3).length,
        ([(none : Option ExecutionState), some stW].take 3).get ⟨i, hi⟩ = some st ∧
        ∀ j (hj : j < i),
          ([(none : Option ExecutionState), some stW].take 3).get
            ⟨j, Nat.lt_trans hj hi⟩ = none) :=
  recover_from_crash_backup_fallback [none, some stW] 0

end ClaudeOps
